import Mathlib

/-!
Treemap: a binary-search-tree backed ordered map

Shallow embedding of `treemap.h` (class `Treemap<K, V>`).

* `NodePtr K V` models a `std::unique_ptr<Node>` slot: either null or an owned
  node with a key, a value and two child slots.
* The key type `K` carries a linear order: the operators `<`, `>` and `==` the
  C++ code applies to keys.
* A C++ exception is modelled by the `Error` it carries; an operation that
  mutates the map returns the state it leaves behind together with the
  exception it threw, if any.
* The `size_t` counter `size` is a natural number. `size--` is only reached
  behind the `Empty()` guard, so it never wraps below zero; `size++` is only
  reached after a node was allocated, and the counter never exceeds the number
  of nodes of the tree (`run_size_le_count`), so it cannot wrap at the top of
  the `size_t` range in a state the class can be in.
* The `while (n)` loops of `Get` and `ContainsKey` step from a node to one of
  its children; they are written as recursion on the tree.
* The order queries `MinKey`, `MaxKey`, `FloorKey` and `CeilKey` read through raw
  pointers without a null test; their result is an `Outcome`, in which
  `nullDeref` marks the dereference of a null pointer.
-/

namespace TreemapModel

/-- The exceptions of `treemap.h`, all `std::invalid_argument`, told apart by message:
`duplicateKey` is "Duplicate key", `emptyTree` is "Empty tree", `invalidKey` is "Invalid key". -/
inductive Error where
  | duplicateKey
  | emptyTree
  | invalidKey
  deriving DecidableEq, Repr

/-- A `std::unique_ptr<Node>` slot: `null`, or a node `{key, value, left, right}`. -/
inductive NodePtr (K V : Type) where
  | null : NodePtr K V
  | node (left : NodePtr K V) (key : K) (value : V) (right : NodePtr K V) : NodePtr K V
  deriving DecidableEq, Repr

namespace NodePtr

variable {K V : Type}

/-- The test `if (n)` on a pointer. -/
def isNode : NodePtr K V → Bool
  | null => false
  | node _ _ _ _ => true

/-- In-order traversal: the (key, value) entries, left subtree first. -/
def entries : NodePtr K V → List (K × V)
  | null => []
  | node l k v r => entries l ++ (k, v) :: entries r

/-- In-order traversal of the keys. -/
def keys : NodePtr K V → List K
  | null => []
  | node l k _ r => keys l ++ k :: keys r

/-- Number of nodes reachable from a slot. -/
def count : NodePtr K V → Nat
  | null => 0
  | node l _ _ r => count l + 1 + count r

/-- The BST invariant: at every node, every key of the left subtree is strictly smaller
than the node key and every key of the right subtree is strictly greater. -/
def IsBST [LinearOrder K] : NodePtr K V → Prop
  | null => True
  | node l k _ r => IsBST l ∧ IsBST r ∧ (∀ x ∈ keys l, x < k) ∧ (∀ x ∈ keys r, k < x)

instance decIsBST [LinearOrder K] : (t : NodePtr K V) → Decidable (IsBST t)
  | null => isTrue trivial
  | node l k _ r =>
    have _ := decIsBST l
    have _ := decIsBST r
    inferInstanceAs (Decidable (IsBST l ∧ IsBST r ∧ (∀ x ∈ keys l, x < k) ∧ (∀ x ∈ keys r, k < x)))

/-- The helper `Node* Min(Node *n)`: follows left links while there is a left child and
returns the (key, value) of the node it stops at. `none` stands for the dereference of a
null `n`. -/
def Min : NodePtr K V → Option (K × V)
  | null => none
  | node null k v _ => some (k, v)
  | node (node ll lk lv lr) _ _ _ => Min (node ll lk lv lr)

/-- The private helper `void Insert(std::unique_ptr<Node> &n, key, value)`.
Returns the content of the slot `n` after the call, and the exception thrown, if any. -/
def Insert [LinearOrder K] : NodePtr K V → K → V → NodePtr K V × Option Error
  | null, key, value => (node null key value null, none)
  | node l k v r, key, value =>
    if key < k then
      (node (Insert l key value).1 k v r, (Insert l key value).2)
    else if key > k then
      (node l k v (Insert r key value).1, (Insert r key value).2)
    else
      (node l k v r, some Error.duplicateKey)

/-- The private helper `void Remove(std::unique_ptr<Node> &n, key)`.
Returns the content of the slot `n` after the call; the helper throws nothing.
In the two-children branch `Min` is applied to the non-null `n->right`, so its `none`
case is never taken there (`Min_entries`). -/
def Remove [LinearOrder K] : NodePtr K V → K → NodePtr K V
  | null, _ => null
  | node l k v r, key =>
    if key < k then
      node (Remove l key) k v r
    else if key > k then
      node l k v (Remove r key)
    else if l.isNode && r.isNode then
      match Min r with
      | some (mk, mv) => node l mk mv (Remove r mk)
      | none => node l k v r
    else if l.isNode then l else r

/-- The descent loop of `Get`: `while (n)` with the three-way key comparison. -/
def getLoop [LinearOrder K] : NodePtr K V → K → Except Error V
  | null, _ => .error Error.invalidKey
  | node l k v r, key =>
    if key = k then .ok v
    else if key < k then getLoop l key
    else getLoop r key

/-- The descent loop of `ContainsKey`. -/
def containsLoop [LinearOrder K] : NodePtr K V → K → Bool
  | null, _ => false
  | node l k _ r, key =>
    if key = k then true
    else if key < k then containsLoop l key
    else containsLoop r key

end NodePtr

/-- The member variables of `Treemap<K, V>`: `root`, `size` and the scratch flag `has_value`. -/
structure Treemap (K V : Type) where
  root : NodePtr K V
  size : Nat
  has_value : Bool
  deriving DecidableEq, Repr

namespace Treemap

variable {K V : Type}

/-- A default-constructed map: null root, `size = 0`; `has_value` is not initialised by
the class, so its starting content `hv` is arbitrary. -/
def new (hv : Bool) : Treemap K V := ⟨NodePtr.null, 0, hv⟩

/-- Member `size_t Size()`. -/
def Size (m : Treemap K V) : Nat := m.size

/-- Member `bool Empty()`. -/
def Empty (m : Treemap K V) : Bool := if m.size = 0 then true else false

/-- Member `void Insert(key, value)`: runs the helper on `root`; `size++` is reached only when the
helper did not throw. -/
def Insert [LinearOrder K] (m : Treemap K V) (key : K) (value : V) : Treemap K V × Option Error :=
  match NodePtr.Insert m.root key value with
  | (r, some e) => ({ m with root := r }, some e)
  | (r, none) => ({ m with root := r, size := m.size + 1 }, none)

/-- Member `void Remove(key)`: throws on `Empty()`, else runs the helper on `root` and then `size--`. -/
def Remove [LinearOrder K] (m : Treemap K V) (key : K) : Treemap K V × Option Error :=
  if m.Empty then (m, some Error.emptyTree)
  else ({ m with root := NodePtr.Remove m.root key, size := m.size - 1 }, none)

/-- Member `const V& Get(key)`: throws on `Empty()`, else runs the descent loop from `root`. -/
def Get [LinearOrder K] (m : Treemap K V) (key : K) : Except Error V :=
  if m.Empty then .error Error.emptyTree
  else NodePtr.getLoop m.root key

/-- Member `bool ContainsKey(key)`: runs the descent loop from `root`. -/
def ContainsKey [LinearOrder K] (m : Treemap K V) (key : K) : Bool :=
  NodePtr.containsLoop m.root key

end Treemap

/-- One modifier call made by a client of the map. -/
inductive Op (K V : Type) where
  | Insert (key : K) (value : V)
  | Remove (key : K)
  deriving DecidableEq, Repr

namespace Treemap

variable {K V : Type}

/-- The state after one call; a thrown exception is caught by the caller and the map keeps
the state the call left. -/
def step [LinearOrder K] (m : Treemap K V) : Op K V → Treemap K V
  | Op.Insert k v => (m.Insert k v).1
  | Op.Remove k => (m.Remove k).1

/-- The state after a sequence of calls, made in order. -/
def run [LinearOrder K] (m : Treemap K V) (ops : List (Op K V)) : Treemap K V :=
  ops.foldl step m

end Treemap

/-- What a call of a query member yields: the value it returns, the exception it throws,
or `nullDeref` when the call dereferences a null pointer (undefined behaviour in C++). -/
inductive Outcome (α : Type) where
  | ok (a : α) : Outcome α
  | thrown (e : Error) : Outcome α
  | nullDeref : Outcome α
  deriving DecidableEq, Repr

/-- The branch one call of the private helper `Remove` takes: `notFound` is the return on a
null slot, `goLeft` and `goRight` are the two descents, `twoChildren` is the branch that
copies the successor, and `oneChild b` is the branch `n = std::move(...)`, where `b` is the
outcome of its test `(n->left)`. -/
inductive Branch where
  | notFound
  | goLeft
  | goRight
  | twoChildren
  | oneChild (leftTaken : Bool)
  deriving DecidableEq, Repr

namespace NodePtr

variable {K V : Type}

/-- The access `n->key` through a raw pointer; `none` stands for the dereference of null. -/
def key? : NodePtr K V → Option K
  | null => none
  | node _ k _ _ => some k

/-- Number of nodes on the longest path from the slot down to a leaf. -/
def height : NodePtr K V → Nat
  | null => 0
  | node l _ _ r => max (height l) (height r) + 1

/-- No node below the slot has a left child. -/
def NoLeftChild : NodePtr K V → Prop
  | null => True
  | node l _ _ r => l = null ∧ NoLeftChild r

/-- The private helper `void ContainsValue(Node *n, value)`. It writes the member
`has_value`; the flag is passed in and the flag after the call is returned. -/
def ContainsValue [DecidableEq V] : NodePtr K V → V → Bool → Bool
  | null, _, flag => flag
  | node l _ v r, value, flag =>
    ContainsValue r value (ContainsValue l value (if value = v then true else flag))

/-- The private helper `Node* FloorNode(Node *n, key)`; the result `null` is `nullptr`. -/
def FloorNode [LinearOrder K] : NodePtr K V → K → NodePtr K V
  | null, _ => null
  | node l k v r, key =>
    if key = k then node l k v r
    else if key < k then FloorNode l key
    else if (FloorNode r key).isNode then FloorNode r key
    else node l k v r

/-- The private helper `Node* CeilNode(Node *n, key)`; the result `null` is `nullptr`. -/
def CeilNode [LinearOrder K] : NodePtr K V → K → NodePtr K V
  | null, _ => null
  | node l k v r, key =>
    if key = k then node l k v r
    else if key > k then CeilNode r key
    else if (CeilNode l key).isNode then CeilNode l key
    else node l k v r

/-- The loop of `MaxKey`: `while (n->right) n = n->right.get();` and then `n->key`.
`none` stands for the dereference of a null `n`. -/
def maxLoop : NodePtr K V → Option K
  | null => none
  | node _ k _ null => some k
  | node _ _ _ (node rl rk rv rr) => maxLoop (node rl rk rv rr)

/-- The private helper `Remove` once more, returning next to the new content of the slot
the branch taken by each successive call, outermost call first. -/
def RemoveTraced [LinearOrder K] : NodePtr K V → K → NodePtr K V × List Branch
  | null, _ => (null, [Branch.notFound])
  | node l k v r, key =>
    if key < k then
      (node (RemoveTraced l key).1 k v r, Branch.goLeft :: (RemoveTraced l key).2)
    else if key > k then
      (node l k v (RemoveTraced r key).1, Branch.goRight :: (RemoveTraced r key).2)
    else if l.isNode && r.isNode then
      match Min r with
      | some (mk, mv) =>
        (node l mk mv (RemoveTraced r mk).1, Branch.twoChildren :: (RemoveTraced r mk).2)
      | none => (node l k v r, [Branch.twoChildren])
    else (if l.isNode then l else r, [Branch.oneChild l.isNode])

/-- The chain that holds the given entries from the top down, each node the right child
of the one before, with no left child anywhere. -/
def rightChain : List (K × V) → NodePtr K V
  | [] => null
  | (k, v) :: rest => node null k v (rightChain rest)

end NodePtr

namespace Treemap

variable {K V : Type}

/-- Member `bool ContainsValue(value)`: clears `has_value`, runs the helper from `root` and
returns the flag; the state returned carries the flag the call leaves behind. -/
def ContainsValue [DecidableEq V] (m : Treemap K V) (value : V) : Treemap K V × Bool :=
  ({ m with has_value := NodePtr.ContainsValue m.root value false },
    NodePtr.ContainsValue m.root value false)

/-- Member `const K& MaxKey()`: no test of `root` precedes the loop. -/
def MaxKey (m : Treemap K V) : Outcome K :=
  match NodePtr.maxLoop m.root with
  | some k => Outcome.ok k
  | none => Outcome.nullDeref

/-- Member `const K& MinKey()`: `Min(root.get())->key`, with no test of `root`. -/
def MinKey (m : Treemap K V) : Outcome K :=
  match NodePtr.Min m.root with
  | some (k, _) => Outcome.ok k
  | none => Outcome.nullDeref

/-- Member `const K& FloorKey(key)`: calls `MinKey()` first, throws "Invalid key" when
`key < MinKey()`, else returns `FloorNode(root, key)->key`. -/
def FloorKey [LinearOrder K] (m : Treemap K V) (key : K) : Outcome K :=
  match m.MinKey with
  | Outcome.ok mn =>
    if key < mn then Outcome.thrown Error.invalidKey
    else
      match (NodePtr.FloorNode m.root key).key? with
      | some k => Outcome.ok k
      | none => Outcome.nullDeref
  | Outcome.thrown e => Outcome.thrown e
  | Outcome.nullDeref => Outcome.nullDeref

/-- Member `const K& CeilKey(key)`: calls `MaxKey()` first, throws "Invalid key" when
`key > MaxKey()`, else returns `CeilNode(root, key)->key`. -/
def CeilKey [LinearOrder K] (m : Treemap K V) (key : K) : Outcome K :=
  match m.MaxKey with
  | Outcome.ok mx =>
    if key > mx then Outcome.thrown Error.invalidKey
    else
      match (NodePtr.CeilNode m.root key).key? with
      | some k => Outcome.ok k
      | none => Outcome.nullDeref
  | Outcome.thrown e => Outcome.thrown e
  | Outcome.nullDeref => Outcome.nullDeref

end Treemap

/-- The calls of the tests `ContainsKeyContainsValue`, `FindCeil`, `FindFloor` before
their first `Remove`: keys 4, 1, 5, 2, 3 inserted in that order. -/
def sampleOps : List (Op Nat Char) :=
  [Op.Insert 4 '4', Op.Insert 1 '1', Op.Insert 5 '5', Op.Insert 2 '2', Op.Insert 3 '3']

/-- The map those calls build: root 4 with children 1 and 5, then 2 right of 1 and 3 right of 2. -/
def sampleMap : Treemap Nat Char := (Treemap.new false).run sampleOps

/-- The map of the tests `FindCeil`, `FindFloor`, `ErrorsFloorAndCeil`: the sample map after
`Remove(4)` and `Remove(3)`, holding the keys 1, 2 and 5. -/
def rangeMap : Treemap Nat Char := sampleMap.run [Op.Remove 4, Op.Remove 3]

/-- A single insertion followed by the removal of a key that was never inserted. -/
def driftOps : List (Op Nat Char) := [Op.Insert 1 'A', Op.Remove 2]

/-! ## Lists of entries filtered by key -/

section ListFacts

variable {K V : Type} [LinearOrder K]

theorem filter_key_lt_all (L : List (K × V)) (k : K) (h : ∀ e ∈ L, e.1 < k) :
    L.filter (fun e => decide (e.1 < k)) = L := by
  rw [List.filter_eq_self]
  intro e he
  simpa using h e he

theorem filter_key_lt_none (L : List (K × V)) (k : K) (h : ∀ e ∈ L, k ≤ e.1) :
    L.filter (fun e => decide (e.1 < k)) = [] := by
  rw [List.filter_eq_nil_iff]
  intro e he
  simpa using h e he

theorem filter_key_gt_all (L : List (K × V)) (k : K) (h : ∀ e ∈ L, k < e.1) :
    L.filter (fun e => decide (k < e.1)) = L := by
  rw [List.filter_eq_self]
  intro e he
  simpa using h e he

theorem filter_key_gt_none (L : List (K × V)) (k : K) (h : ∀ e ∈ L, e.1 ≤ k) :
    L.filter (fun e => decide (k < e.1)) = [] := by
  rw [List.filter_eq_nil_iff]
  intro e he
  simpa using h e he

theorem filter_key_ne_all (L : List (K × V)) (k : K) (h : ∀ e ∈ L, e.1 ≠ k) :
    L.filter (fun e => decide (e.1 ≠ k)) = L := by
  rw [List.filter_eq_self]
  intro e he
  simpa using h e he

theorem filter_key_ne_cons_keep (x : K × V) (L : List (K × V)) (k : K) (h : x.1 ≠ k) :
    (x :: L).filter (fun e => decide (e.1 ≠ k)) = x :: L.filter (fun e => decide (e.1 ≠ k)) := by
  rw [List.filter_cons, if_pos (decide_eq_true h)]

theorem filter_key_ne_cons_drop (v : V) (L : List (K × V)) (k : K) :
    ((k, v) :: L).filter (fun e => decide (e.1 ≠ k)) = L.filter (fun e => decide (e.1 ≠ k)) := by
  rw [List.filter_cons, if_neg (by simp)]

end ListFacts

namespace NodePtr

variable {K V : Type}

/-! ## Traversals -/

theorem keys_eq_map (t : NodePtr K V) : t.keys = t.entries.map Prod.fst := by
  induction t with
  | null => rfl
  | node l k v r ihl ihr => simp [keys, entries, ihl, ihr]

theorem mem_keys_iff (t : NodePtr K V) (k : K) : k ∈ t.keys ↔ ∃ v, (k, v) ∈ t.entries := by
  rw [keys_eq_map]
  simp

theorem key_mem_of_entry (t : NodePtr K V) (e : K × V) (h : e ∈ t.entries) : e.1 ∈ t.keys := by
  rw [keys_eq_map]
  exact List.mem_map_of_mem _ h

theorem count_eq_length (t : NodePtr K V) : t.count = t.entries.length := by
  induction t with
  | null => rfl
  | node l k v r ihl ihr => simp [count, entries, ihl, ihr]; omega

/-- On a non-null pointer `Min` returns the first entry of the in-order traversal. -/
theorem Min_entries (t : NodePtr K V) (h : t.isNode = true) :
    ∃ mk mv rest, t.Min = some (mk, mv) ∧ t.entries = (mk, mv) :: rest := by
  induction t with
  | null => simp [isNode] at h
  | node l k v r ihl _ =>
    cases l with
    | null => exact ⟨k, v, r.entries, by simp [Min], by simp [entries]⟩
    | node ll lk lv lr =>
      obtain ⟨mk, mv, rest, h1, h2⟩ := ihl (by simp [isNode])
      refine ⟨mk, mv, rest ++ (k, v) :: r.entries, ?_, ?_⟩
      · rw [Min]; exact h1
      · simp only [entries] at h2 ⊢
        rw [h2]; simp

variable [LinearOrder K]

/-- The BST invariant says exactly that the in-order key list is strictly ascending. -/
theorem isBST_iff_sorted (t : NodePtr K V) : t.IsBST ↔ t.keys.Sorted (· < ·) := by
  induction t with
  | null => simp [IsBST, keys]
  | node l k v r ihl ihr =>
    simp only [IsBST, keys, List.Sorted, List.pairwise_append, List.pairwise_cons,
      List.mem_cons] at *
    rw [ihl, ihr]
    constructor
    · rintro ⟨hl, hr, hlk, hrk⟩
      refine ⟨hl, ⟨hrk, hr⟩, ?_⟩
      intro a ha b hb
      rcases hb with rfl | hb
      · exact hlk a ha
      · exact lt_trans (hlk a ha) (hrk b hb)
    · rintro ⟨hl, ⟨hrk, hr⟩, hc⟩
      exact ⟨hl, hr, fun a ha => hc a ha k (Or.inl rfl), hrk⟩

/-! ## The insert helper -/

/-- The helper throws nothing but "Duplicate key". -/
theorem Insert_error_cases (t : NodePtr K V) (key : K) (value : V) :
    (t.Insert key value).2 = none ∨ (t.Insert key value).2 = some Error.duplicateKey := by
  induction t with
  | null => simp [Insert]
  | node l k v r ihl ihr =>
    unfold Insert
    split_ifs
    · exact ihl
    · exact ihr
    · exact Or.inr rfl

/-- When the helper throws, the slot holds what it held before the call. -/
theorem Insert_throw_unchanged (t : NodePtr K V) (key : K) (value : V)
    (h : (t.Insert key value).2 ≠ none) : (t.Insert key value).1 = t := by
  induction t with
  | null => simp [Insert] at h
  | node l k v r ihl ihr =>
    unfold Insert at h ⊢
    split_ifs at h ⊢
    · simp [ihl h]
    · simp [ihr h]
    · rfl

/-- On a BST that holds the key, the helper throws "Duplicate key". -/
theorem Insert_present (t : NodePtr K V) (key : K) (value : V) (hb : t.IsBST)
    (hk : key ∈ t.keys) : (t.Insert key value).2 = some Error.duplicateKey := by
  induction t with
  | null => simp [keys] at hk
  | node l k v r ihl ihr =>
    obtain ⟨hl, hr, hlk, hrk⟩ := hb
    simp only [keys, List.mem_append, List.mem_cons] at hk
    unfold Insert
    split_ifs with h1 h2
    · rcases hk with hk | rfl | hk
      · exact ihl hl hk
      · exact absurd h1 (lt_irrefl _)
      · exact absurd (lt_trans h1 (hrk _ hk)) (lt_irrefl _)
    · rcases hk with hk | rfl | hk
      · exact absurd (lt_trans h2 (hlk _ hk)) (lt_irrefl _)
      · exact absurd h2 (lt_irrefl _)
      · exact ihr hr hk
    · rfl

/-- When the key is in no node, the helper does not throw; no BST assumption is needed. -/
theorem Insert_absent_ok (t : NodePtr K V) (key : K) (value : V)
    (hk : key ∉ t.keys) : (t.Insert key value).2 = none := by
  induction t with
  | null => simp [Insert]
  | node l k v r ihl ihr =>
    simp only [keys, List.mem_append, List.mem_cons, not_or] at hk
    unfold Insert
    split_ifs with h1 h2
    · exact ihl hk.1
    · exact ihr hk.2.2
    · exact absurd (le_antisymm (not_lt.mp h2) (not_lt.mp h1)) hk.2.1

/-- On a BST without the key, the helper puts the new entry between the smaller and the
greater entries. -/
theorem Insert_absent_entries (t : NodePtr K V) (key : K) (value : V) (hb : t.IsBST)
    (hk : key ∉ t.keys) :
    (t.Insert key value).1.entries =
      t.entries.filter (fun e => decide (e.1 < key)) ++
        (key, value) :: t.entries.filter (fun e => decide (key < e.1)) := by
  induction t with
  | null => simp [Insert, entries]
  | node l k v r ihl ihr =>
    obtain ⟨hl, hr, hlk, hrk⟩ := hb
    simp only [keys, List.mem_append, List.mem_cons, not_or] at hk
    have hlk2 : ∀ e ∈ l.entries, e.1 < k := fun e he => hlk _ (key_mem_of_entry l e he)
    have hrk2 : ∀ e ∈ r.entries, k < e.1 := fun e he => hrk _ (key_mem_of_entry r e he)
    unfold Insert
    split_ifs with h1 h2
    · have e1 : r.entries.filter (fun e => decide (e.1 < key)) = [] :=
        filter_key_lt_none _ _ (fun e he => le_of_lt (lt_trans h1 (hrk2 e he)))
      have e2 : r.entries.filter (fun e => decide (key < e.1)) = r.entries :=
        filter_key_gt_all _ _ (fun e he => lt_trans h1 (hrk2 e he))
      simp [entries, ihl hl hk.1, List.filter_append, List.filter_cons, h1, not_lt.mpr (le_of_lt h1), e1, e2]
    · have e1 : l.entries.filter (fun e => decide (e.1 < key)) = l.entries :=
        filter_key_lt_all _ _ (fun e he => lt_trans (hlk2 e he) h2)
      have e2 : l.entries.filter (fun e => decide (key < e.1)) = [] :=
        filter_key_gt_none _ _ (fun e he => le_of_lt (lt_trans (hlk2 e he) h2))
      simp [entries, ihr hr hk.2.2, List.filter_append, List.filter_cons, h2, not_lt.mpr (le_of_lt h2), e1, e2]
    · exact absurd (le_antisymm (not_lt.mp h2) (not_lt.mp h1)) hk.2.1

/-- The helper allocates one node when it does not throw. -/
theorem Insert_count (t : NodePtr K V) (key : K) (value : V) :
    (t.Insert key value).1.count =
      if (t.Insert key value).2 = none then t.count + 1 else t.count := by
  induction t with
  | null => simp [Insert, count]
  | node l k v r ihl ihr =>
    unfold Insert
    split_ifs with h1 h2 h3 h4 h5 <;> simp_all [count] <;> omega

/-- The helper keeps the BST invariant, whether it throws or not. -/
theorem Insert_isBST (t : NodePtr K V) (key : K) (value : V) (hb : t.IsBST) :
    (t.Insert key value).1.IsBST := by
  by_cases hk : key ∈ t.keys
  · have h := Insert_present t key value hb hk
    rw [Insert_throw_unchanged t key value (by simp [h])]
    exact hb
  · rw [isBST_iff_sorted, keys_eq_map, Insert_absent_entries t key value hb hk]
    have hs := (isBST_iff_sorted t).mp hb
    rw [keys_eq_map] at hs
    have hs1 : (t.entries.map Prod.fst).Pairwise (· < ·) := hs
    rw [List.pairwise_map] at hs1
    show List.Pairwise (· < ·) _
    rw [List.pairwise_map, List.pairwise_append, List.pairwise_cons]
    refine ⟨hs1.sublist (List.filter_sublist _), ⟨?_, hs1.sublist (List.filter_sublist _)⟩, ?_⟩
    · intro e he
      simpa using (List.mem_filter.mp he).2
    · intro a ha b hb2
      have ha2 : a.1 < key := by simpa using (List.mem_filter.mp ha).2
      rcases List.mem_cons.mp hb2 with rfl | hb3
      · exact ha2
      · have hb4 : key < b.1 := by simpa using (List.mem_filter.mp hb3).2
        exact lt_trans ha2 hb4

/-! ## The remove helper -/

/-- When the key is in no node, the helper leaves the slot as it is. -/
theorem Remove_absent (t : NodePtr K V) (key : K) (hk : key ∉ t.keys) :
    t.Remove key = t := by
  induction t with
  | null => simp [Remove]
  | node l k v r ihl ihr =>
    simp only [keys, List.mem_append, List.mem_cons, not_or] at hk
    unfold Remove
    split_ifs with h1 h2 h3 h4
    · rw [ihl hk.1]
    · rw [ihr hk.2.2]
    · exact absurd (le_antisymm (not_lt.mp h2) (not_lt.mp h1)) hk.2.1
    · exact absurd (le_antisymm (not_lt.mp h2) (not_lt.mp h1)) hk.2.1
    · exact absurd (le_antisymm (not_lt.mp h2) (not_lt.mp h1)) hk.2.1

/-- On a BST the helper deletes exactly the entries whose key is the removed key. -/
theorem Remove_entries (t : NodePtr K V) (key : K) (hb : t.IsBST) :
    (t.Remove key).entries = t.entries.filter (fun e => decide (e.1 ≠ key)) := by
  induction t generalizing key with
  | null => simp [Remove, entries]
  | node l k v r ihl ihr =>
    obtain ⟨hl, hr, hlk, hrk⟩ := hb
    have hlk2 : ∀ e ∈ l.entries, e.1 < k := fun e he => hlk _ (key_mem_of_entry l e he)
    have hrk2 : ∀ e ∈ r.entries, k < e.1 := fun e he => hrk _ (key_mem_of_entry r e he)
    unfold Remove
    split_ifs with h1 h2 h3 h4
    · have e1 : r.entries.filter (fun e => decide (e.1 ≠ key)) = r.entries :=
        filter_key_ne_all _ _ (fun e he => ne_of_gt (lt_trans h1 (hrk2 e he)))
      simp only [entries]
      rw [ihl key hl, List.filter_append, filter_key_ne_cons_keep _ _ _ (ne_of_gt h1), e1]
    · have e1 : l.entries.filter (fun e => decide (e.1 ≠ key)) = l.entries :=
        filter_key_ne_all _ _ (fun e he => ne_of_lt (lt_trans (hlk2 e he) h2))
      simp only [entries]
      rw [ihr key hr, List.filter_append, filter_key_ne_cons_keep _ _ _ (ne_of_lt h2), e1]
    all_goals
      have hkey : key = k := le_antisymm (not_lt.mp h2) (not_lt.mp h1)
      subst hkey
      have e1 : l.entries.filter (fun e => decide (e.1 ≠ key)) = l.entries :=
        filter_key_ne_all _ _ (fun e he => ne_of_lt (hlk2 e he))
      have e2 : r.entries.filter (fun e => decide (e.1 ≠ key)) = r.entries :=
        filter_key_ne_all _ _ (fun e he => ne_of_gt (hrk2 e he))
      have e0 : (node l key v r).entries.filter (fun e => decide (e.1 ≠ key))
          = l.entries ++ r.entries := by
        simp only [entries]
        rw [List.filter_append, filter_key_ne_cons_drop, e1, e2]
      rw [e0]
    · simp only [Bool.and_eq_true] at h3
      obtain ⟨mk, mv, rest, hm, hrest⟩ := Min_entries r h3.2
      rw [hm]
      have hsr := (isBST_iff_sorted r).mp hr
      rw [keys_eq_map, hrest] at hsr
      have hsr1 : (((mk, mv) :: rest).map Prod.fst).Pairwise (· < ·) := hsr
      rw [List.pairwise_map, List.pairwise_cons] at hsr1
      have e3 : rest.filter (fun e => decide (e.1 ≠ mk)) = rest :=
        filter_key_ne_all _ _ (fun e he => ne_of_gt (hsr1.1 e he))
      have e4 : (r.Remove mk).entries = rest := by
        rw [ihr mk hr, hrest, filter_key_ne_cons_drop, e3]
      simp only [entries]
      rw [e4, hrest]
    · cases r with
      | null => simp [entries]
      | node rl rk rv rr =>
        rw [h4] at h3
        simp [isNode] at h3
    · cases l with
      | null => simp [entries]
      | node ll lk lv lr => simp [isNode] at h4

/-- The helper keeps the BST invariant. -/
theorem Remove_isBST (t : NodePtr K V) (key : K) (hb : t.IsBST) : (t.Remove key).IsBST := by
  rw [isBST_iff_sorted, keys_eq_map, Remove_entries t key hb]
  have hs := (isBST_iff_sorted t).mp hb
  rw [keys_eq_map] at hs
  have hs1 : (t.entries.map Prod.fst).Pairwise (· < ·) := hs
  rw [List.pairwise_map] at hs1
  show List.Pairwise (· < ·) _
  rw [List.pairwise_map]
  exact hs1.sublist (List.filter_sublist _)

/-- The helper unlinks at most one node. -/
theorem Remove_count (t : NodePtr K V) (key : K) :
    (t.Remove key).count ≤ t.count ∧ t.count ≤ (t.Remove key).count + 1 := by
  induction t generalizing key with
  | null => simp [Remove, count]
  | node l k v r ihl ihr =>
    unfold Remove
    split_ifs with h1 h2 h3 h4
    · have := ihl key
      simp only [count]; omega
    · have := ihr key
      simp only [count]; omega
    · cases hm : r.Min with
      | none => simp
      | some e =>
        have := ihr e.1
        simp only [count]; omega
    · cases r with
      | null => simp [count]
      | node rl rk rv rr =>
        rw [h4] at h3
        simp [isNode] at h3
    · cases l with
      | null => simp only [count]; omega
      | node ll lk lv lr => simp [isNode] at h4

/-! ## The descent loops of `Get` and `ContainsKey` -/

/-- On a BST the `Get` loop returns `v` exactly when `(key, v)` is an entry. -/
theorem getLoop_ok_iff (t : NodePtr K V) (key : K) (value : V) (hb : t.IsBST) :
    t.getLoop key = .ok value ↔ (key, value) ∈ t.entries := by
  induction t with
  | null => simp [getLoop, entries]
  | node l k v r ihl ihr =>
    obtain ⟨hl, hr, hlk, hrk⟩ := hb
    have hlk2 : ∀ w, (key, w) ∈ l.entries → key < k :=
      fun w hw => hlk _ (key_mem_of_entry l (key, w) hw)
    have hrk2 : ∀ w, (key, w) ∈ r.entries → k < key :=
      fun w hw => hrk _ (key_mem_of_entry r (key, w) hw)
    simp only [entries, List.mem_append, List.mem_cons, Prod.mk.injEq]
    unfold getLoop
    split_ifs with h1 h2
    · subst h1
      constructor
      · intro h
        injection h with h
        exact Or.inr (Or.inl ⟨rfl, h.symm⟩)
      · rintro (h | ⟨-, h⟩ | h)
        · exact absurd (hlk2 _ h) (lt_irrefl _)
        · rw [h]
        · exact absurd (hrk2 _ h) (lt_irrefl _)
    · rw [ihl hl]
      constructor
      · exact Or.inl
      · rintro (h | ⟨h, -⟩ | h)
        · exact h
        · exact absurd h h1
        · exact absurd (lt_trans h2 (hrk2 _ h)) (lt_irrefl _)
    · rw [ihr hr]
      constructor
      · exact fun h => Or.inr (Or.inr h)
      · rintro (h | ⟨h, -⟩ | h)
        · exact absurd (hlk2 _ h) h2
        · exact absurd h h1
        · exact h

/-- The `Get` loop fails only by reaching a null slot, which throws "Invalid key". -/
theorem getLoop_error_cases (t : NodePtr K V) (key : K) (e : Error)
    (h : t.getLoop key = .error e) : e = Error.invalidKey := by
  induction t with
  | null =>
    simp only [getLoop] at h
    injection h with h
    exact h.symm
  | node l k v r ihl ihr =>
    unfold getLoop at h
    split_ifs at h
    · exact ihl h
    · exact ihr h

/-- On a BST the `Get` loop throws "Invalid key" exactly when no node has the key. -/
theorem getLoop_error_iff (t : NodePtr K V) (key : K) (hb : t.IsBST) :
    t.getLoop key = .error Error.invalidKey ↔ key ∉ t.keys := by
  constructor
  · intro h hk
    obtain ⟨v, hv⟩ := (mem_keys_iff t key).mp hk
    rw [(getLoop_ok_iff t key v hb).mpr hv] at h
    cases h
  · intro hk
    cases hg : t.getLoop key with
    | error e => rw [getLoop_error_cases t key e hg]
    | ok v =>
      exact absurd ((mem_keys_iff t key).mpr ⟨v, (getLoop_ok_iff t key v hb).mp hg⟩) hk

/-- On a BST the `ContainsKey` loop returns true exactly when some node has the key. -/
theorem containsLoop_iff (t : NodePtr K V) (key : K) (hb : t.IsBST) :
    t.containsLoop key = true ↔ key ∈ t.keys := by
  induction t with
  | null => simp [containsLoop, keys]
  | node l k v r ihl ihr =>
    obtain ⟨hl, hr, hlk, hrk⟩ := hb
    simp only [keys, List.mem_append, List.mem_cons]
    unfold containsLoop
    split_ifs with h1 h2
    · simp [h1]
    · rw [ihl hl]
      constructor
      · exact Or.inl
      · rintro (h | h | h)
        · exact h
        · exact absurd h h1
        · exact absurd (lt_trans h2 (hrk _ h)) (lt_irrefl _)
    · rw [ihr hr]
      constructor
      · exact fun h => Or.inr (Or.inr h)
      · rintro (h | h | h)
        · exact absurd (hlk _ h) h2
        · exact absurd h h1
        · exact h

end NodePtr

/-! ## Sorted entry lists -/

section SortedFacts

variable {K V : Type} [LinearOrder K]

/-- A key-sorted list without the key `k` splits into its entries below and above `k`. -/
theorem filter_key_split (L : List (K × V)) (k : K)
    (hs : L.Pairwise (fun a b => a.1 < b.1)) (hk : ∀ e ∈ L, e.1 ≠ k) :
    L.filter (fun e => decide (e.1 < k)) ++ L.filter (fun e => decide (k < e.1)) = L := by
  induction L with
  | nil => rfl
  | cons x xs ih =>
    rw [List.pairwise_cons] at hs
    have ih2 := ih hs.2 (fun e he => hk e (List.mem_cons_of_mem _ he))
    rcases lt_trichotomy x.1 k with h | h | h
    · rw [List.filter_cons, if_pos (decide_eq_true h), List.filter_cons,
        if_neg (by simpa using le_of_lt h), List.cons_append, ih2]
    · exact absurd h (hk x (List.mem_cons_self _ _))
    · have hall : ∀ e ∈ x :: xs, k < e.1 := by
        intro e he
        rcases List.mem_cons.mp he with rfl | he
        · exact h
        · exact lt_trans h (hs.1 e he)
      rw [filter_key_lt_none _ _ (fun e he => le_of_lt (hall e he)),
        filter_key_gt_all _ _ hall, List.nil_append]

/-- In a key-sorted list, dropping the entries with key `k` deletes the one entry for `k`. -/
theorem filter_key_ne_split (L : List (K × V)) (k : K) (v : V)
    (hs : L.Pairwise (fun a b => a.1 < b.1)) (hm : (k, v) ∈ L) :
    ∃ pre post, L = pre ++ (k, v) :: post ∧
      L.filter (fun e => decide (e.1 ≠ k)) = pre ++ post := by
  obtain ⟨pre, post, rfl⟩ := List.append_of_mem hm
  refine ⟨pre, post, rfl, ?_⟩
  rw [List.pairwise_append, List.pairwise_cons] at hs
  obtain ⟨-, ⟨hpost, -⟩, hpre⟩ := hs
  rw [List.filter_append, filter_key_ne_cons_drop,
    filter_key_ne_all pre k (fun e he => ne_of_lt (hpre e he (k, v) (List.mem_cons_self _ _))),
    filter_key_ne_all post k (fun e he => ne_of_gt (hpost e he))]

end SortedFacts

namespace NodePtr

variable {K V : Type} [LinearOrder K]

/-- The entries of a BST are sorted by key. -/
theorem entries_sorted (t : NodePtr K V) (hb : t.IsBST) :
    t.entries.Pairwise (fun a b => a.1 < b.1) := by
  have hs := (isBST_iff_sorted t).mp hb
  rw [keys_eq_map] at hs
  have hs1 : (t.entries.map Prod.fst).Pairwise (· < ·) := hs
  rw [List.pairwise_map] at hs1
  exact hs1

end NodePtr

/-! ## The public operations -/

namespace Treemap

variable {K V : Type} [LinearOrder K]

theorem map_Insert_root (m : Treemap K V) (k : K) (v : V) :
    (m.Insert k v).1.root = (m.root.Insert k v).1 := by
  unfold Treemap.Insert
  split <;> rename_i h <;> simp [h]

theorem map_Insert_error (m : Treemap K V) (k : K) (v : V) :
    (m.Insert k v).2 = (m.root.Insert k v).2 := by
  unfold Treemap.Insert
  split <;> rename_i h <;> simp [h]

theorem map_Insert_size (m : Treemap K V) (k : K) (v : V) :
    (m.Insert k v).1.size = if (m.root.Insert k v).2 = none then m.size + 1 else m.size := by
  unfold Treemap.Insert
  split <;> rename_i h <;> simp [h]

theorem map_Insert_flag (m : Treemap K V) (k : K) (v : V) :
    (m.Insert k v).1.has_value = m.has_value := by
  unfold Treemap.Insert
  split <;> rfl

theorem map_Remove_nonempty (m : Treemap K V) (k : K) (hs : 0 < m.size) :
    m.Remove k = ({ m with root := m.root.Remove k, size := m.size - 1 }, none) := by
  have h : m.Empty = false := by
    unfold Treemap.Empty
    rw [if_neg (by omega)]
  unfold Treemap.Remove
  rw [h]
  rfl

theorem map_Remove_empty (m : Treemap K V) (k : K) (hs : m.size = 0) :
    m.Remove k = (m, some Error.emptyTree) := by
  have h : m.Empty = true := by
    unfold Treemap.Empty
    rw [if_pos hs]
  unfold Treemap.Remove
  rw [h]
  rfl

/-- Every call keeps the BST invariant of the tree. -/
theorem step_isBST (m : Treemap K V) (op : Op K V) (hb : m.root.IsBST) :
    (m.step op).root.IsBST := by
  cases op with
  | Insert k v =>
    show (m.Insert k v).1.root.IsBST
    rw [map_Insert_root]
    exact NodePtr.Insert_isBST _ _ _ hb
  | Remove k =>
    show (m.Remove k).1.root.IsBST
    rcases Nat.eq_zero_or_pos m.size with hs | hs
    · rw [map_Remove_empty m k hs]; exact hb
    · rw [map_Remove_nonempty m k hs]; exact NodePtr.Remove_isBST _ _ hb

theorem run_isBST (m : Treemap K V) (ops : List (Op K V)) (hb : m.root.IsBST) :
    (m.run ops).root.IsBST := by
  induction ops generalizing m with
  | nil => exact hb
  | cons op ops ih => exact ih (m.step op) (step_isBST m op hb)

/-- No call lets the counter exceed the number of nodes. -/
theorem step_size_le_count (m : Treemap K V) (op : Op K V) (h : m.size ≤ m.root.count) :
    (m.step op).size ≤ (m.step op).root.count := by
  cases op with
  | Insert k v =>
    show (m.Insert k v).1.size ≤ (m.Insert k v).1.root.count
    rw [map_Insert_root, map_Insert_size, NodePtr.Insert_count]
    split_ifs <;> omega
  | Remove k =>
    show (m.Remove k).1.size ≤ (m.Remove k).1.root.count
    rcases Nat.eq_zero_or_pos m.size with hs | hs
    · rw [map_Remove_empty m k hs]; exact h
    · rw [map_Remove_nonempty m k hs]
      have := (NodePtr.Remove_count m.root k).2
      show m.size - 1 ≤ (m.root.Remove k).count
      omega

theorem run_size_le_count (m : Treemap K V) (ops : List (Op K V)) (h : m.size ≤ m.root.count) :
    (m.run ops).size ≤ (m.run ops).root.count := by
  induction ops generalizing m with
  | nil => exact h
  | cons op ops ih => exact ih (m.step op) (step_size_le_count m op h)

end Treemap

/-! ## The value scan, the extreme keys -/

namespace NodePtr

variable {K V : Type}

/-- The helper of `ContainsValue` leaves the flag true exactly when it was true before or
some node holds the value. -/
theorem ContainsValue_iff [DecidableEq V] (t : NodePtr K V) (value : V) (flag : Bool) :
    t.ContainsValue value flag = true ↔ flag = true ∨ ∃ k, (k, value) ∈ t.entries := by
  induction t generalizing flag with
  | null => simp [ContainsValue, entries]
  | node l k v r ihl ihr =>
    simp only [ContainsValue, entries, List.mem_append, List.mem_cons, Prod.mk.injEq]
    rw [ihr, ihl]
    constructor
    · rintro ((h | ⟨a, h⟩) | ⟨a, h⟩)
      · split_ifs at h with hv
        · exact Or.inr ⟨k, Or.inr (Or.inl ⟨rfl, hv⟩)⟩
        · exact Or.inl h
      · exact Or.inr ⟨a, Or.inl h⟩
      · exact Or.inr ⟨a, Or.inr (Or.inr h)⟩
    · rintro (h | ⟨a, h | ⟨-, h⟩ | h⟩)
      · left; left
        split_ifs
        · rfl
        · exact h
      · exact Or.inl (Or.inr ⟨a, h⟩)
      · left; left
        rw [if_pos h]
      · exact Or.inr ⟨a, h⟩

/-- On a non-null pointer the `MaxKey` loop returns the key of the last entry of the
in-order traversal. -/
theorem maxLoop_entries (t : NodePtr K V) (h : t.isNode = true) :
    ∃ mk mv front, t.maxLoop = some mk ∧ t.entries = front ++ [(mk, mv)] := by
  induction t with
  | null => simp [isNode] at h
  | node l k v r _ ihr =>
    cases r with
    | null => exact ⟨k, v, l.entries, by simp [maxLoop], by simp [entries]⟩
    | node rl rk rv rr =>
      obtain ⟨mk, mv, front, h1, h2⟩ := ihr (by simp [isNode])
      refine ⟨mk, mv, l.entries ++ (k, v) :: front, ?_, ?_⟩
      · rw [maxLoop]; exact h1
      · simp only [entries] at h2 ⊢
        rw [h2]; simp

theorem rightChain_height (L : List (K × V)) : (rightChain L).height = L.length := by
  induction L with
  | nil => rfl
  | cons e rest ih =>
    obtain ⟨k, v⟩ := e
    simp [rightChain, height, ih]

theorem rightChain_noLeftChild (L : List (K × V)) : (rightChain L).NoLeftChild := by
  induction L with
  | nil => trivial
  | cons e rest ih =>
    obtain ⟨k, v⟩ := e
    exact ⟨rfl, ih⟩

theorem key_some_isNode (t : NodePtr K V) (k : K) (h : t.key? = some k) : t.isNode = true := by
  cases t with
  | null => simp [key?] at h
  | node l a v r => rfl

theorem isNode_of_mem_keys (t : NodePtr K V) (x : K) (h : x ∈ t.keys) : t.isNode = true := by
  cases t with
  | null => simp [keys] at h
  | node l k v r => rfl

theorem isNode_iff_count_pos (t : NodePtr K V) : t.isNode = true ↔ 0 < t.count := by
  cases t with
  | null => simp [isNode, count]
  | node l k v r => simp [isNode, count]

variable [LinearOrder K]

/-- On a non-empty BST `Min` stops at the least key. -/
theorem Min_least (t : NodePtr K V) (h : t.isNode = true) (hb : t.IsBST) :
    ∃ mk mv, t.Min = some (mk, mv) ∧ mk ∈ t.keys ∧ ∀ x ∈ t.keys, mk ≤ x := by
  obtain ⟨mk, mv, rest, h1, h2⟩ := Min_entries t h
  have hs := (isBST_iff_sorted t).mp hb
  rw [keys_eq_map, h2] at hs
  have hs1 : (((mk, mv) :: rest).map Prod.fst).Pairwise (· < ·) := hs
  rw [List.map_cons, List.pairwise_cons] at hs1
  refine ⟨mk, mv, h1, ?_, ?_⟩
  · rw [keys_eq_map, h2]; simp
  · intro x hx
    rw [keys_eq_map, h2, List.map_cons, List.mem_cons] at hx
    rcases hx with rfl | hx
    · exact le_refl _
    · exact le_of_lt (hs1.1 x hx)

/-- On a non-empty BST the `MaxKey` loop stops at the greatest key. -/
theorem maxLoop_greatest (t : NodePtr K V) (h : t.isNode = true) (hb : t.IsBST) :
    ∃ mk, t.maxLoop = some mk ∧ mk ∈ t.keys ∧ ∀ x ∈ t.keys, x ≤ mk := by
  obtain ⟨mk, mv, front, h1, h2⟩ := maxLoop_entries t h
  have hs := (isBST_iff_sorted t).mp hb
  rw [keys_eq_map, h2] at hs
  have hs1 : ((front ++ [(mk, mv)]).map Prod.fst).Pairwise (· < ·) := hs
  rw [List.map_append, List.pairwise_append] at hs1
  refine ⟨mk, h1, ?_, ?_⟩
  · rw [keys_eq_map, h2]; simp
  · intro x hx
    rw [keys_eq_map, h2, List.map_append, List.mem_append] at hx
    rcases hx with hx | hx
    · exact le_of_lt (hs1.2.2 x hx mk (by simp))
    · simp at hx
      exact le_of_eq hx

end NodePtr

/-! ## Floor and ceiling descents -/

namespace NodePtr

variable {K V : Type} [LinearOrder K]

/-- On a BST `FloorNode` returns null when every key is above the query, and otherwise the
node with the greatest key that is not above the query. -/
theorem FloorNode_spec (t : NodePtr K V) (key : K) (hb : t.IsBST) :
    ((t.FloorNode key).key? = none ∧ ∀ x ∈ t.keys, key < x) ∨
    (∃ f, (t.FloorNode key).key? = some f ∧ f ∈ t.keys ∧ f ≤ key ∧
      ∀ x ∈ t.keys, x ≤ key → x ≤ f) := by
  induction t with
  | null => exact Or.inl ⟨rfl, by simp [keys]⟩
  | node l k v r ihl ihr =>
    obtain ⟨hl, hr, hlk, hrk⟩ := hb
    unfold FloorNode
    simp only [keys, List.mem_append, List.mem_cons]
    split_ifs with h1 h2 h3
    · subst h1
      refine Or.inr ⟨key, rfl, Or.inr (Or.inl rfl), le_refl _, ?_⟩
      rintro x (hx | rfl | hx) _
      · exact le_of_lt (hlk x hx)
      · exact le_refl _
      · assumption
    · rcases ihl hl with ⟨hn, hall⟩ | ⟨f, hf, hmem, hle, hmax⟩
      · refine Or.inl ⟨hn, ?_⟩
        rintro x (hx | rfl | hx)
        · exact hall x hx
        · exact h2
        · exact lt_trans h2 (hrk x hx)
      · refine Or.inr ⟨f, hf, Or.inl hmem, hle, ?_⟩
        rintro x (hx | rfl | hx) hxk
        · exact hmax x hx hxk
        · exact absurd (lt_of_le_of_lt hxk h2) (lt_irrefl _)
        · exact absurd (lt_trans (lt_of_le_of_lt hxk h2) (hrk x hx)) (lt_irrefl _)
    · have hgt : k < key := lt_of_le_of_ne (not_lt.mp h2) (Ne.symm h1)
      rcases ihr hr with ⟨hn, -⟩ | ⟨f, hf, hmem, hle, hmax⟩
      · cases hfr : r.FloorNode key with
        | null => rw [hfr] at h3; simp [isNode] at h3
        | node a b c d => rw [hfr] at hn; simp [key?] at hn
      · refine Or.inr ⟨f, hf, Or.inr (Or.inr hmem), hle, ?_⟩
        rintro x (hx | rfl | hx) hxk
        · exact le_of_lt (lt_trans (hlk x hx) (hrk f hmem))
        · exact le_of_lt (hrk f hmem)
        · exact hmax x hx hxk
    · have hgt : k < key := lt_of_le_of_ne (not_lt.mp h2) (Ne.symm h1)
      rcases ihr hr with ⟨-, hall⟩ | ⟨f, hf, -, -, -⟩
      · refine Or.inr ⟨k, rfl, Or.inr (Or.inl rfl), le_of_lt hgt, ?_⟩
        rintro x (hx | rfl | hx) hxk
        · exact le_of_lt (hlk x hx)
        · exact le_refl _
        · exact absurd (lt_of_lt_of_le (hall x hx) hxk) (lt_irrefl _)
      · cases hfr : r.FloorNode key with
        | null => rw [hfr] at hf; simp [key?] at hf
        | node a b c d => rw [hfr] at h3; simp [isNode] at h3

/-- On a BST `CeilNode` returns null when every key is below the query, and otherwise the
node with the least key that is not below the query. -/
theorem CeilNode_spec (t : NodePtr K V) (key : K) (hb : t.IsBST) :
    ((t.CeilNode key).key? = none ∧ ∀ x ∈ t.keys, x < key) ∨
    (∃ c, (t.CeilNode key).key? = some c ∧ c ∈ t.keys ∧ key ≤ c ∧
      ∀ x ∈ t.keys, key ≤ x → c ≤ x) := by
  induction t with
  | null => exact Or.inl ⟨rfl, by simp [keys]⟩
  | node l k v r ihl ihr =>
    obtain ⟨hl, hr, hlk, hrk⟩ := hb
    unfold CeilNode
    simp only [keys, List.mem_append, List.mem_cons]
    split_ifs with h1 h2 h3
    · subst h1
      refine Or.inr ⟨key, rfl, Or.inr (Or.inl rfl), le_refl _, ?_⟩
      rintro x (hx | rfl | hx) _
      · assumption
      · exact le_refl _
      · exact le_of_lt (hrk x hx)
    · rcases ihr hr with ⟨hn, hall⟩ | ⟨c, hc, hmem, hle, hmin⟩
      · refine Or.inl ⟨hn, ?_⟩
        rintro x (hx | rfl | hx)
        · exact lt_trans (hlk x hx) h2
        · exact h2
        · exact hall x hx
      · refine Or.inr ⟨c, hc, Or.inr (Or.inr hmem), hle, ?_⟩
        rintro x (hx | rfl | hx) hxk
        · exact absurd (lt_trans (lt_of_lt_of_le h2 hxk) (hlk x hx)) (lt_irrefl _)
        · exact absurd (lt_of_lt_of_le h2 hxk) (lt_irrefl _)
        · exact hmin x hx hxk
    · have hlt : key < k := lt_of_le_of_ne (not_lt.mp h2) h1
      rcases ihl hl with ⟨hn, -⟩ | ⟨c, hc, hmem, hle, hmin⟩
      · cases hfl : l.CeilNode key with
        | null => rw [hfl] at h3; simp [isNode] at h3
        | node a b c d => rw [hfl] at hn; simp [key?] at hn
      · refine Or.inr ⟨c, hc, Or.inl hmem, hle, ?_⟩
        rintro x (hx | rfl | hx) hxk
        · exact hmin x hx hxk
        · exact le_of_lt (hlk c hmem)
        · exact le_of_lt (lt_trans (hlk c hmem) (hrk x hx))
    · have hlt : key < k := lt_of_le_of_ne (not_lt.mp h2) h1
      rcases ihl hl with ⟨-, hall⟩ | ⟨c, hc, -, -, -⟩
      · refine Or.inr ⟨k, rfl, Or.inr (Or.inl rfl), le_of_lt hlt, ?_⟩
        rintro x (hx | rfl | hx) hxk
        · exact absurd (lt_of_le_of_lt hxk (hall x hx)) (lt_irrefl _)
        · exact le_refl _
        · exact le_of_lt (hrk x hx)
      · cases hfl : l.CeilNode key with
        | null => rw [hfl] at hc; simp [key?] at hc
        | node a b c d => rw [hfl] at h3; simp [isNode] at h3

end NodePtr

/-! ## The order queries -/

namespace Treemap

variable {K V : Type} [LinearOrder K]

/-- On a non-empty BST `MinKey()` returns the least key. -/
theorem MinKey_least (m : Treemap K V) (hn : m.root.isNode = true) (hb : m.root.IsBST) :
    ∃ mn, m.MinKey = Outcome.ok mn ∧ mn ∈ m.root.keys ∧ ∀ x ∈ m.root.keys, mn ≤ x := by
  obtain ⟨mk, mv, h1, h2, h3⟩ := NodePtr.Min_least m.root hn hb
  refine ⟨mk, ?_, h2, h3⟩
  unfold Treemap.MinKey
  rw [h1]

/-- On a non-empty BST `MaxKey()` returns the greatest key. -/
theorem MaxKey_greatest (m : Treemap K V) (hn : m.root.isNode = true) (hb : m.root.IsBST) :
    ∃ mx, m.MaxKey = Outcome.ok mx ∧ mx ∈ m.root.keys ∧ ∀ x ∈ m.root.keys, x ≤ mx := by
  obtain ⟨mk, h1, h2, h3⟩ := NodePtr.maxLoop_greatest m.root hn hb
  refine ⟨mk, ?_, h2, h3⟩
  unfold Treemap.MaxKey
  rw [h1]

/-- On a non-empty BST `FloorKey` throws below the least key and otherwise returns the
greatest key that is not above the query, taken from a non-null `FloorNode` result. -/
theorem FloorKey_cases (m : Treemap K V) (key : K) (hn : m.root.isNode = true)
    (hb : m.root.IsBST) :
    ((∀ x ∈ m.root.keys, key < x) ∧ m.FloorKey key = Outcome.thrown Error.invalidKey) ∨
    (∃ f, m.FloorKey key = Outcome.ok f ∧ (m.root.FloorNode key).key? = some f ∧
      f ∈ m.root.keys ∧ f ≤ key ∧ ∀ x ∈ m.root.keys, x ≤ key → x ≤ f) := by
  obtain ⟨mn, h1, h2, h3⟩ := MinKey_least m hn hb
  unfold Treemap.FloorKey
  rw [h1]
  by_cases hlt : key < mn
  · left
    exact ⟨fun x hx => lt_of_lt_of_le hlt (h3 x hx), by simp [hlt]⟩
  · right
    rcases NodePtr.FloorNode_spec m.root key hb with ⟨-, hall⟩ | ⟨f, hf, hmem, hle, hmax⟩
    · exact absurd (hall mn h2) hlt
    · exact ⟨f, by simp [hlt, hf], hf, hmem, hle, hmax⟩

/-- On a non-empty BST `CeilKey` throws above the greatest key and otherwise returns the
least key that is not below the query, taken from a non-null `CeilNode` result. -/
theorem CeilKey_cases (m : Treemap K V) (key : K) (hn : m.root.isNode = true)
    (hb : m.root.IsBST) :
    ((∀ x ∈ m.root.keys, x < key) ∧ m.CeilKey key = Outcome.thrown Error.invalidKey) ∨
    (∃ c, m.CeilKey key = Outcome.ok c ∧ (m.root.CeilNode key).key? = some c ∧
      c ∈ m.root.keys ∧ key ≤ c ∧ ∀ x ∈ m.root.keys, key ≤ x → c ≤ x) := by
  obtain ⟨mx, h1, h2, h3⟩ := MaxKey_greatest m hn hb
  unfold Treemap.CeilKey
  rw [h1]
  by_cases hgt : key > mx
  · left
    exact ⟨fun x hx => lt_of_le_of_lt (h3 x hx) hgt, by simp [hgt]⟩
  · right
    rcases NodePtr.CeilNode_spec m.root key hb with ⟨-, hall⟩ | ⟨c, hc, hmem, hle, hmin⟩
    · exact absurd (hall mx h2) hgt
    · exact ⟨c, by simp [hgt, hc], hc, hmem, hle, hmin⟩

end Treemap

/-! ## The calls made by the remove helper -/

namespace NodePtr

variable {K V : Type} [LinearOrder K]

/-- The traced helper computes the slot content of the helper itself. -/
theorem RemoveTraced_fst (t : NodePtr K V) (key : K) : (t.RemoveTraced key).1 = t.Remove key := by
  induction t generalizing key with
  | null => rfl
  | node l k v r ihl ihr =>
    unfold RemoveTraced Remove
    split_ifs with h1 h2 h3 h4
    · rw [ihl]
    · rw [ihr]
    · cases hm : r.Min with
      | none => rfl
      | some e => simp only [ihr]
    · rfl
    · rfl

/-- The helper makes at most one call per level of the tree, and one more on a null slot. -/
theorem RemoveTraced_length (t : NodePtr K V) (key : K) :
    (t.RemoveTraced key).2.length ≤ t.height + 1 := by
  induction t generalizing key with
  | null => simp [RemoveTraced, height]
  | node l k v r ihl ihr =>
    unfold RemoveTraced
    simp only [height]
    split_ifs with h1 h2 h3 h4
    · have := ihl key
      simp only [List.length_cons]
      omega
    · have := ihr key
      simp only [List.length_cons]
      omega
    · cases hm : r.Min with
      | none => simp
      | some e =>
        have := ihr e.1
        simp only [List.length_cons]
        omega
    · simp
    · simp

/-- Removing from a BST the key `Min` returns only descends to the left and ends in the
branch `n = std::move(...)` at a node without left child. -/
theorem RemoveTraced_of_Min (t : NodePtr K V) (mk : K) (mv : V) (hb : t.IsBST)
    (hm : t.Min = some (mk, mv)) :
    ∃ n, (t.RemoveTraced mk).2 = List.replicate n Branch.goLeft ++ [Branch.oneChild false] := by
  induction t with
  | null => simp [Min] at hm
  | node l k v r ihl _ =>
    obtain ⟨hl, -, hlk, -⟩ := hb
    cases l with
    | null =>
      simp only [Min, Option.some.injEq, Prod.mk.injEq] at hm
      obtain ⟨rfl, -⟩ := hm
      refine ⟨0, ?_⟩
      unfold RemoveTraced
      simp [isNode]
    | node ll lk lv lr =>
      rw [Min] at hm
      obtain ⟨n, hn⟩ := ihl hl hm
      obtain ⟨mk2, mv2, rest, h1, h2⟩ := Min_entries (node ll lk lv lr) rfl
      rw [hm] at h1
      simp only [Option.some.injEq, Prod.mk.injEq] at h1
      obtain ⟨rfl, rfl⟩ := h1
      have hlt : mk < k := hlk mk (by rw [keys_eq_map, h2]; simp)
      refine ⟨n + 1, ?_⟩
      unfold RemoveTraced
      rw [if_pos hlt]
      simp only [hn, List.replicate_succ, List.cons_append]

/-- On a BST the helper enters the two-children branch at most once. -/
theorem RemoveTraced_twoChildren_once (t : NodePtr K V) (key : K) (hb : t.IsBST) :
    (t.RemoveTraced key).2.count Branch.twoChildren ≤ 1 := by
  induction t generalizing key with
  | null => simp [RemoveTraced]
  | node l k v r ihl ihr =>
    obtain ⟨hl, hr, -, -⟩ := hb
    unfold RemoveTraced
    split_ifs with h1 h2 h3 h4
    · simpa using ihl key hl
    · simpa using ihr key hr
    · cases hm : r.Min with
      | none => simp
      | some e =>
        obtain ⟨n, hn⟩ := RemoveTraced_of_Min r e.1 e.2 hr hm
        simp only [hn]
        simp [List.count_cons, List.count_append, List.count_replicate]
    · simp
    · simp

/-! ## Insertion in ascending order, insertion undone -/

/-- A key above every key of a right chain is appended at its lower end. -/
theorem Insert_rightChain (L : List (K × V)) (key : K) (value : V)
    (h : ∀ e ∈ L, e.1 < key) :
    (rightChain L).Insert key value = (rightChain (L ++ [(key, value)]), none) := by
  induction L with
  | nil => rfl
  | cons e rest ih =>
    obtain ⟨k, v⟩ := e
    have hk : k < key := h (k, v) (List.mem_cons_self _ _)
    have ih2 := ih (fun e he => h e (List.mem_cons_of_mem _ he))
    simp only [rightChain, List.cons_append]
    unfold Insert
    rw [if_neg (not_lt.mpr (le_of_lt hk)), if_pos hk, ih2]
    rfl

/-- When the helper `Insert` does not throw, the helper `Remove` of the same key gives back
the slot content from before the insertion, on every tree. -/
theorem Remove_Insert (t : NodePtr K V) (key : K) (value : V)
    (h : (t.Insert key value).2 = none) : (t.Insert key value).1.Remove key = t := by
  induction t with
  | null => simp [Insert, Remove, isNode]
  | node l k v r ihl ihr =>
    unfold Insert at h ⊢
    split_ifs at h ⊢ with h1 h2
    · unfold Remove
      rw [if_pos h1, ihl h]
    · unfold Remove
      rw [if_neg h1, if_pos h2, ihr h]

end NodePtr

/-! ## Sequences of insertions -/

namespace Treemap

variable {K V : Type} [LinearOrder K]

/-- Inserting key-ascending entries, all above the keys of a right chain, extends the chain. -/
theorem run_inserts_rightChain (L P : List (K × V)) (m : Treemap K V)
    (hroot : m.root = NodePtr.rightChain P)
    (hPL : ∀ p ∈ P, ∀ e ∈ L, p.1 < e.1) (hL : L.Pairwise (fun a b => a.1 < b.1)) :
    (m.run (L.map fun e => Op.Insert e.1 e.2)).root = NodePtr.rightChain (P ++ L) ∧
    (m.run (L.map fun e => Op.Insert e.1 e.2)).size = m.size + L.length := by
  induction L generalizing P m with
  | nil => simp [run, hroot]
  | cons e rest ih =>
    rw [List.pairwise_cons] at hL
    have hins : m.root.Insert e.1 e.2 = (NodePtr.rightChain (P ++ [(e.1, e.2)]), none) := by
      rw [hroot]
      exact NodePtr.Insert_rightChain P e.1 e.2 (fun p hp => hPL p hp e (List.mem_cons_self _ _))
    have hroot2 : (m.step (Op.Insert e.1 e.2)).root = NodePtr.rightChain (P ++ [e]) := by
      show (m.Insert e.1 e.2).1.root = _
      rw [map_Insert_root, hins]
    have hsize2 : (m.step (Op.Insert e.1 e.2)).size = m.size + 1 := by
      show (m.Insert e.1 e.2).1.size = _
      rw [map_Insert_size, hins]
      rfl
    have hPL2 : ∀ p ∈ P ++ [e], ∀ x ∈ rest, p.1 < x.1 := by
      intro p hp x hx
      rcases List.mem_append.mp hp with hp | hp
      · exact hPL p hp x (List.mem_cons_of_mem _ hx)
      · rw [List.mem_singleton] at hp
        rw [hp]
        exact hL.1 x hx
    obtain ⟨h1, h2⟩ := ih (P ++ [e]) (m.step (Op.Insert e.1 e.2)) hroot2 hPL2 hL.2
    have hrun : m.run ((e :: rest).map fun e => Op.Insert e.1 e.2) =
        (m.step (Op.Insert e.1 e.2)).run (rest.map fun e => Op.Insert e.1 e.2) := rfl
    rw [hrun, h1, h2, hsize2]
    constructor
    · rw [List.append_assoc]; rfl
    · simp only [List.length_cons]; omega

end Treemap

/-! ## The claims -/

section Claims

open Treemap NodePtr

/-- C1: every `Insert` and every `Remove`, failing or not, keeps the BST invariant of the
tree, and in every state reached from the empty map by a sequence of such calls the in-order
traversal lists the keys in strictly ascending order. -/
theorem bst_invariant_preserved (K V : Type) [LinearOrder K] :
    (∀ (m : Treemap K V) (k : K) (v : V), m.root.IsBST → (m.Insert k v).1.root.IsBST) ∧
    (∀ (m : Treemap K V) (k : K), m.root.IsBST → (m.Remove k).1.root.IsBST) ∧
    (∀ (hv : Bool) (ops : List (Op K V)),
      ((Treemap.new hv : Treemap K V).run ops).root.IsBST ∧
      ((Treemap.new hv : Treemap K V).run ops).root.keys.Sorted (· < ·)) := by
  refine ⟨fun m k v hb => step_isBST m (Op.Insert k v) hb,
    fun m k hb => step_isBST m (Op.Remove k) hb, fun hv ops => ?_⟩
  have h : ((Treemap.new hv : Treemap K V).run ops).root.IsBST :=
    run_isBST _ ops (by simp [Treemap.new, IsBST])
  exact ⟨h, (isBST_iff_sorted _).mp h⟩

theorem bst_invariant_preserved_witness :
    sampleMap.root.IsBST ∧ (sampleMap.Insert 6 '6').1.root.IsBST ∧
      (sampleMap.Insert 4 'h').1.root.IsBST ∧ (sampleMap.Remove 4).1.root.IsBST :=
  ⟨by decide, (bst_invariant_preserved Nat Char).1 sampleMap 6 '6' (by decide),
    (bst_invariant_preserved Nat Char).1 sampleMap 4 'h' (by decide),
    (bst_invariant_preserved Nat Char).2.1 sampleMap 4 (by decide)⟩

/-- C2: after `Insert(1, A)` and then `Remove(2)` on the empty map, `Size()` returns 0 while
one node is reachable from the root: the counter is not the number of nodes. -/
theorem size_differs_from_node_count :
    ((Treemap.new false).run driftOps).Size = 0 ∧
      ((Treemap.new false).run driftOps).root.count = 1 ∧
      ((Treemap.new false).run driftOps).root.entries = [(1, 'A')] := by
  decide

/-- C3: on a BST that holds the key `k`, `Insert(k, v)` throws "Duplicate key" for every `v`
and leaves the whole map state, tree and counter, as it was. -/
theorem insert_duplicate_fails {K V : Type} [LinearOrder K] (m : Treemap K V) (k : K)
    (hb : m.root.IsBST) (hk : k ∈ m.root.keys) (v : V) :
    m.Insert k v = (m, some Error.duplicateKey) := by
  have h2 := NodePtr.Insert_present m.root k v hb hk
  have h1 := NodePtr.Insert_throw_unchanged m.root k v (by simp [h2])
  have h : m.root.Insert k v = (m.root, some Error.duplicateKey) := Prod.ext h1 h2
  unfold Treemap.Insert
  rw [h]

theorem insert_duplicate_fails_witness :
    sampleMap.Insert 4 'h' = (sampleMap, some Error.duplicateKey) :=
  insert_duplicate_fails sampleMap 4 (by decide) (by decide) 'h'

/-- C4: on a BST without the key `k`, `Insert(k, v)` does not throw, the counter grows by
one, and the in-order entry list of the new tree is the old list with `(k, v)` put in at
its sorted position: the old list splits into the entries below `k` and those above `k`
with `(k, v)` between them, so the new entries are `(k, v)` and exactly the old ones. -/
theorem insert_absent_succeeds {K V : Type} [LinearOrder K] (m : Treemap K V) (k : K) (v : V)
    (hb : m.root.IsBST) (hk : k ∉ m.root.keys) :
    (m.Insert k v).2 = none ∧
    (m.Insert k v).1.size = m.size + 1 ∧
    (∃ pre post, m.root.entries = pre ++ post ∧
      (m.Insert k v).1.root.entries = pre ++ (k, v) :: post ∧
      (∀ e ∈ pre, e.1 < k) ∧ (∀ e ∈ post, k < e.1)) ∧
    (m.Insert k v).1.root.keys.Sorted (· < ·) ∧
    (∀ e : K × V, e ∈ (m.Insert k v).1.root.entries ↔ e = (k, v) ∨ e ∈ m.root.entries) := by
  have hok := NodePtr.Insert_absent_ok m.root k v hk
  have hent := NodePtr.Insert_absent_entries m.root k v hb hk
  have hne : ∀ e ∈ m.root.entries, e.1 ≠ k := by
    intro e he h
    exact hk (h ▸ key_mem_of_entry m.root e he)
  have hsplit := filter_key_split m.root.entries k (entries_sorted m.root hb) hne
  refine ⟨by rw [map_Insert_error, hok], by rw [map_Insert_size, if_pos hok], ?_, ?_, ?_⟩
  · refine ⟨_, _, hsplit.symm, by rw [map_Insert_root, hent], ?_, ?_⟩
    · intro e he
      simpa using (List.mem_filter.mp he).2
    · intro e he
      simpa using (List.mem_filter.mp he).2
  · rw [map_Insert_root]
    exact (isBST_iff_sorted _).mp (NodePtr.Insert_isBST _ _ _ hb)
  · intro e
    rw [map_Insert_root, hent]
    nth_rewrite 3 [← hsplit]
    simp only [List.mem_append, List.mem_cons]
    tauto

theorem insert_absent_succeeds_witness :
    (sampleMap.Insert 6 '6').2 = none ∧
    (sampleMap.Insert 6 '6').1.size = sampleMap.size + 1 ∧
    (∃ pre post, sampleMap.root.entries = pre ++ post ∧
      (sampleMap.Insert 6 '6').1.root.entries = pre ++ (6, '6') :: post ∧
      (∀ e ∈ pre, e.1 < 6) ∧ (∀ e ∈ post, 6 < e.1)) ∧
    (sampleMap.Insert 6 '6').1.root.keys.Sorted (· < ·) ∧
    (∀ e : Nat × Char, e ∈ (sampleMap.Insert 6 '6').1.root.entries ↔
      e = (6, '6') ∨ e ∈ sampleMap.root.entries) :=
  insert_absent_succeeds sampleMap 6 '6' (by decide) (by decide)

/-- C5: on a BST that holds the key `k`, with a counter above zero, `Remove(k)` does not
throw, the counter drops by one, and the in-order entry list of the new tree is the old
list with the one entry for `k` deleted: `k` is gone and every entry with another key is
kept, whichever branch of the helper unlinked the node. -/
theorem remove_present_succeeds {K V : Type} [LinearOrder K] (m : Treemap K V) (k : K)
    (hb : m.root.IsBST) (hk : k ∈ m.root.keys) (hs : 0 < m.size) :
    (m.Remove k).2 = none ∧
    (m.Remove k).1.size + 1 = m.size ∧
    (∃ v pre post, m.root.entries = pre ++ (k, v) :: post ∧
      (m.Remove k).1.root.entries = pre ++ post) ∧
    k ∉ (m.Remove k).1.root.keys ∧
    (∀ e : K × V, e.1 ≠ k → (e ∈ (m.Remove k).1.root.entries ↔ e ∈ m.root.entries)) := by
  rw [map_Remove_nonempty m k hs]
  have hent := NodePtr.Remove_entries m.root k hb
  obtain ⟨v, hv⟩ := (mem_keys_iff m.root k).mp hk
  obtain ⟨pre, post, h1, h2⟩ := filter_key_ne_split m.root.entries k v (entries_sorted m.root hb) hv
  refine ⟨rfl, ?_, ⟨v, pre, post, h1, ?_⟩, ?_, ?_⟩
  · show m.size - 1 + 1 = m.size
    omega
  · show (m.root.Remove k).entries = pre ++ post
    rw [hent, h2]
  · show k ∉ (m.root.Remove k).keys
    rw [mem_keys_iff]
    rintro ⟨w, hw⟩
    rw [hent, List.mem_filter] at hw
    simp at hw
  · intro e he
    show e ∈ (m.root.Remove k).entries ↔ e ∈ m.root.entries
    rw [hent, List.mem_filter]
    simp [he]

theorem remove_present_succeeds_witness :
    (sampleMap.Remove 4).2 = none ∧
    (sampleMap.Remove 4).1.size + 1 = sampleMap.size ∧
    (∃ v pre post, sampleMap.root.entries = pre ++ (4, v) :: post ∧
      (sampleMap.Remove 4).1.root.entries = pre ++ post) ∧
    4 ∉ (sampleMap.Remove 4).1.root.keys ∧
    (∀ e : Nat × Char, e.1 ≠ 4 →
      (e ∈ (sampleMap.Remove 4).1.root.entries ↔ e ∈ sampleMap.root.entries)) :=
  remove_present_succeeds sampleMap 4 (by decide) (by decide) (by decide)

/-- C6: with a counter above zero and a tree in which no node has the key `k`, `Remove(k)`
does not throw, leaves the tree exactly as it was, and still lowers the counter by one.
The BST invariant is not needed for this. -/
theorem remove_absent_keeps_tree {K V : Type} [LinearOrder K] (m : Treemap K V) (k : K)
    (hs : 0 < m.size) (hk : k ∉ m.root.keys) :
    (m.Remove k).2 = none ∧
    (m.Remove k).1.root = m.root ∧
    (m.Remove k).1.size + 1 = m.size ∧
    (m.Remove k).1.has_value = m.has_value := by
  rw [map_Remove_nonempty m k hs]
  refine ⟨rfl, NodePtr.Remove_absent m.root k hk, ?_, rfl⟩
  show m.size - 1 + 1 = m.size
  omega

theorem remove_absent_keeps_tree_witness :
    (sampleMap.Remove 7).2 = none ∧
    (sampleMap.Remove 7).1.root = sampleMap.root ∧
    (sampleMap.Remove 7).1.size + 1 = sampleMap.size ∧
    (sampleMap.Remove 7).1.has_value = sampleMap.has_value :=
  remove_absent_keeps_tree sampleMap 7 (by decide) (by decide)

/-- C7: when the map holds zero entries, `Remove(k)` throws "Empty tree" and leaves the
whole state, tree and counter, as it was. This holds whenever `Empty()` is true, whatever
the tree, and so in every state reached from the empty map whose root is null. -/
theorem remove_on_empty_fails (K V : Type) [LinearOrder K] :
    (∀ (m : Treemap K V) (k : K), m.Empty = true → m.Remove k = (m, some Error.emptyTree)) ∧
    (∀ (hv : Bool) (ops : List (Op K V)) (k : K),
      ((Treemap.new hv : Treemap K V).run ops).root = NodePtr.null →
      ((Treemap.new hv : Treemap K V).run ops).Remove k =
        ((Treemap.new hv : Treemap K V).run ops, some Error.emptyTree)) := by
  constructor
  · intro m k h
    unfold Treemap.Remove
    rw [h]
    rfl
  · intro hv ops k h
    have hle := run_size_le_count (Treemap.new hv : Treemap K V) ops
      (by simp [Treemap.new, NodePtr.count])
    rw [h] at hle
    exact map_Remove_empty _ k (by simpa [NodePtr.count] using hle)

theorem remove_on_empty_fails_witness :
    (Treemap.new false : Treemap Nat Char).Remove 42 =
        (Treemap.new false, some Error.emptyTree) ∧
      ((Treemap.new false : Treemap Nat Char).run [Op.Insert 1 'A', Op.Remove 1]).Remove 1 =
        ((Treemap.new false : Treemap Nat Char).run [Op.Insert 1 'A', Op.Remove 1],
          some Error.emptyTree) :=
  ⟨(remove_on_empty_fails Nat Char).1 (Treemap.new false) 42 (by decide),
    (remove_on_empty_fails Nat Char).2 false [Op.Insert 1 'A', Op.Remove 1] 1 (by decide)⟩

/-- C8: on a BST, `Get(k)` throws "Empty tree" when the counter is zero; otherwise it
returns `v` exactly when `(k, v)` is an entry of the tree, and throws "Invalid key" (key
not found) exactly when no node has the key `k`. -/
theorem get_spec {K V : Type} [LinearOrder K] (m : Treemap K V) (k : K)
    (hb : m.root.IsBST) :
    (m.size = 0 → m.Get k = .error Error.emptyTree) ∧
    (m.size ≠ 0 →
      (∀ v : V, m.Get k = .ok v ↔ (k, v) ∈ m.root.entries) ∧
      (m.Get k = .error Error.invalidKey ↔ k ∉ m.root.keys)) := by
  constructor
  · intro hs
    unfold Treemap.Get Treemap.Empty
    rw [if_pos hs]
    rfl
  · intro hs
    have hg : m.Get k = m.root.getLoop k := by
      unfold Treemap.Get Treemap.Empty
      rw [if_neg hs]
      rfl
    rw [hg]
    exact ⟨fun v => getLoop_ok_iff m.root k v hb, getLoop_error_iff m.root k hb⟩

theorem get_spec_witness :
    (sampleMap.Get 3 = .ok '3' ↔ (3, '3') ∈ sampleMap.root.entries) ∧
      (sampleMap.Get 0 = .error Error.invalidKey ↔ 0 ∉ sampleMap.root.keys) ∧
      ((Treemap.new false : Treemap Nat Char).Get 42 = .error Error.emptyTree) :=
  ⟨((get_spec sampleMap 3 (by decide)).2 (by decide)).1 '3',
    ((get_spec sampleMap 0 (by decide)).2 (by decide)).2,
    (get_spec (Treemap.new false : Treemap Nat Char) 42 (by decide)).1 (by decide)⟩

/-- C9: after `Insert(1, A)` and then `Remove(2)` on the empty map, the entry `(1, A)` is
still in the tree and no `Remove(1)` was made, yet `Get(1)` throws "Empty tree" instead of
returning `A`. -/
theorem get_fails_on_inserted_key :
    (1, 'A') ∈ ((Treemap.new false).run driftOps).root.entries ∧
      ((Treemap.new false).run driftOps).Get 1 = .error Error.emptyTree ∧
      ((Treemap.new false).run driftOps).Get 1 ≠ .ok 'A' := by
  refine ⟨by decide, rfl, ?_⟩
  intro h
  cases h

/-- C10: on a BST, the empty tree included, `ContainsKey(k)` returns true exactly when some
node of the tree has the key `k`; it is a total function, so it throws nothing. -/
theorem containsKey_spec {K V : Type} [LinearOrder K] (m : Treemap K V) (k : K)
    (hb : m.root.IsBST) :
    (m.ContainsKey k = true ↔ k ∈ m.root.keys) ∧
    (m.ContainsKey k = false ↔ k ∉ m.root.keys) := by
  have h := containsLoop_iff m.root k hb
  unfold Treemap.ContainsKey
  refine ⟨h, ?_⟩
  rw [← h]
  simp

theorem containsKey_spec_witness :
    (sampleMap.ContainsKey 3 = true ↔ 3 ∈ sampleMap.root.keys) ∧
      (sampleMap.ContainsKey 3 = false ↔ 3 ∉ sampleMap.root.keys) :=
  containsKey_spec sampleMap 3 (by decide)

/-- C11: on every tree, BST or not, `ContainsValue(v)` throws nothing and returns true
exactly when some node stores the value `v`; it returns false on the empty map, its result
is the same whatever the scratch flag `has_value` held before the call, and it leaves the
tree and the counter as they were. -/
theorem containsValue_spec {K V : Type} [DecidableEq V] (m : Treemap K V) (v : V) :
    ((m.ContainsValue v).2 = true ↔ ∃ k, (k, v) ∈ m.root.entries) ∧
    ((m.ContainsValue v).2 = false ↔ ¬ ∃ k, (k, v) ∈ m.root.entries) ∧
    (∀ flag : Bool, ({ m with has_value := flag }.ContainsValue v).2 = (m.ContainsValue v).2) ∧
    (∀ hv : Bool, ((Treemap.new hv : Treemap K V).ContainsValue v).2 = false) ∧
    (m.ContainsValue v).1.root = m.root ∧ (m.ContainsValue v).1.size = m.size := by
  have h : (m.ContainsValue v).2 = true ↔ ∃ k, (k, v) ∈ m.root.entries := by
    show m.root.ContainsValue v false = true ↔ _
    rw [NodePtr.ContainsValue_iff]
    simp
  refine ⟨h, ?_, fun _ => rfl, fun _ => rfl, rfl, rfl⟩
  rw [← h]
  simp

/-- C12: on a non-empty BST `MinKey()` returns the least and `MaxKey()` the greatest of the
keys stored in the tree. -/
theorem minKey_maxKey_spec {K V : Type} [LinearOrder K] (m : Treemap K V)
    (hn : m.root.isNode = true) (hb : m.root.IsBST) :
    (∃ mn, m.MinKey = Outcome.ok mn ∧ mn ∈ m.root.keys ∧ ∀ x ∈ m.root.keys, mn ≤ x) ∧
    (∃ mx, m.MaxKey = Outcome.ok mx ∧ mx ∈ m.root.keys ∧ ∀ x ∈ m.root.keys, x ≤ mx) :=
  ⟨MinKey_least m hn hb, MaxKey_greatest m hn hb⟩

theorem minKey_maxKey_spec_witness :
    (∃ mn, sampleMap.MinKey = Outcome.ok mn ∧ mn ∈ sampleMap.root.keys ∧
      ∀ x ∈ sampleMap.root.keys, mn ≤ x) ∧
    (∃ mx, sampleMap.MaxKey = Outcome.ok mx ∧ mx ∈ sampleMap.root.keys ∧
      ∀ x ∈ sampleMap.root.keys, x ≤ mx) :=
  minKey_maxKey_spec sampleMap (by decide) (by decide)

/-- C13: on a non-empty BST, when some stored key is at most `k`, `FloorKey(k)` returns the
greatest stored key that is at most `k`, read from a non-null `FloorNode` result; when no
stored key is at most `k`, which is the case exactly when `k < MinKey()`, it throws
"Invalid key" (key out of range). -/
theorem floorKey_spec {K V : Type} [LinearOrder K] (m : Treemap K V) (k : K)
    (hn : m.root.isNode = true) (hb : m.root.IsBST) :
    ((∃ x ∈ m.root.keys, x ≤ k) →
      ∃ f, m.FloorKey k = Outcome.ok f ∧ f ∈ m.root.keys ∧ f ≤ k ∧
        (∀ x ∈ m.root.keys, x ≤ k → x ≤ f) ∧
        (m.root.FloorNode k).isNode = true ∧ (m.root.FloorNode k).key? = some f) ∧
    ((¬ ∃ x ∈ m.root.keys, x ≤ k) → m.FloorKey k = Outcome.thrown Error.invalidKey) ∧
    ((¬ ∃ x ∈ m.root.keys, x ≤ k) ↔ ∃ mn, m.MinKey = Outcome.ok mn ∧ k < mn) := by
  obtain ⟨mn, hmin, hmem, hleast⟩ := MinKey_least m hn hb
  refine ⟨?_, ?_, ?_⟩
  · rintro ⟨x, hx, hxk⟩
    rcases FloorKey_cases m k hn hb with ⟨hall, -⟩ | ⟨f, h1, h2, h3, h4, h5⟩
    · exact absurd (hall x hx) (not_lt.mpr hxk)
    · exact ⟨f, h1, h3, h4, h5, key_some_isNode _ f h2, h2⟩
  · intro hno
    rcases FloorKey_cases m k hn hb with ⟨-, h⟩ | ⟨f, -, -, h3, h4, -⟩
    · exact h
    · exact absurd ⟨f, h3, h4⟩ hno
  · constructor
    · intro hno
      refine ⟨mn, hmin, ?_⟩
      by_contra hlt
      exact hno ⟨mn, hmem, not_lt.mp hlt⟩
    · rintro ⟨mn2, h2, hlt⟩ ⟨x, hx, hxk⟩
      rw [hmin] at h2
      injection h2 with h2
      subst h2
      exact absurd (lt_of_lt_of_le hlt (hleast x hx)) (not_lt.mpr hxk)

theorem floorKey_spec_witness :
    ((∃ x ∈ rangeMap.root.keys, x ≤ 4) →
      ∃ f, rangeMap.FloorKey 4 = Outcome.ok f ∧ f ∈ rangeMap.root.keys ∧ f ≤ 4 ∧
        (∀ x ∈ rangeMap.root.keys, x ≤ 4 → x ≤ f) ∧
        (rangeMap.root.FloorNode 4).isNode = true ∧
        (rangeMap.root.FloorNode 4).key? = some f) ∧
    ((¬ ∃ x ∈ rangeMap.root.keys, x ≤ 4) →
      rangeMap.FloorKey 4 = Outcome.thrown Error.invalidKey) ∧
    ((¬ ∃ x ∈ rangeMap.root.keys, x ≤ 4) ↔ ∃ mn, rangeMap.MinKey = Outcome.ok mn ∧ 4 < mn) :=
  floorKey_spec rangeMap 4 (by decide) (by decide)

/-- C14: on a non-empty BST, when some stored key is at least `k`, `CeilKey(k)` returns the
least stored key that is at least `k`, read from a non-null `CeilNode` result; when no
stored key is at least `k`, which is the case exactly when `k > MaxKey()`, it throws
"Invalid key" (key out of range). -/
theorem ceilKey_spec {K V : Type} [LinearOrder K] (m : Treemap K V) (k : K)
    (hn : m.root.isNode = true) (hb : m.root.IsBST) :
    ((∃ x ∈ m.root.keys, k ≤ x) →
      ∃ c, m.CeilKey k = Outcome.ok c ∧ c ∈ m.root.keys ∧ k ≤ c ∧
        (∀ x ∈ m.root.keys, k ≤ x → c ≤ x) ∧
        (m.root.CeilNode k).isNode = true ∧ (m.root.CeilNode k).key? = some c) ∧
    ((¬ ∃ x ∈ m.root.keys, k ≤ x) → m.CeilKey k = Outcome.thrown Error.invalidKey) ∧
    ((¬ ∃ x ∈ m.root.keys, k ≤ x) ↔ ∃ mx, m.MaxKey = Outcome.ok mx ∧ k > mx) := by
  obtain ⟨mx, hmax, hmem, hgreatest⟩ := MaxKey_greatest m hn hb
  refine ⟨?_, ?_, ?_⟩
  · rintro ⟨x, hx, hxk⟩
    rcases CeilKey_cases m k hn hb with ⟨hall, -⟩ | ⟨c, h1, h2, h3, h4, h5⟩
    · exact absurd (hall x hx) (not_lt.mpr hxk)
    · exact ⟨c, h1, h3, h4, h5, key_some_isNode _ c h2, h2⟩
  · intro hno
    rcases CeilKey_cases m k hn hb with ⟨-, h⟩ | ⟨c, -, -, h3, h4, -⟩
    · exact h
    · exact absurd ⟨c, h3, h4⟩ hno
  · constructor
    · intro hno
      refine ⟨mx, hmax, ?_⟩
      by_contra hlt
      exact hno ⟨mx, hmem, not_lt.mp hlt⟩
    · rintro ⟨mx2, h2, hlt⟩ ⟨x, hx, hxk⟩
      rw [hmax] at h2
      injection h2 with h2
      subst h2
      exact absurd (lt_of_le_of_lt (hgreatest x hx) hlt) (not_lt.mpr hxk)

theorem ceilKey_spec_witness :
    ((∃ x ∈ rangeMap.root.keys, 3 ≤ x) →
      ∃ c, rangeMap.CeilKey 3 = Outcome.ok c ∧ c ∈ rangeMap.root.keys ∧ 3 ≤ c ∧
        (∀ x ∈ rangeMap.root.keys, 3 ≤ x → c ≤ x) ∧
        (rangeMap.root.CeilNode 3).isNode = true ∧
        (rangeMap.root.CeilNode 3).key? = some c) ∧
    ((¬ ∃ x ∈ rangeMap.root.keys, 3 ≤ x) →
      rangeMap.CeilKey 3 = Outcome.thrown Error.invalidKey) ∧
    ((¬ ∃ x ∈ rangeMap.root.keys, 3 ≤ x) ↔ ∃ mx, rangeMap.MaxKey = Outcome.ok mx ∧ 3 > mx) :=
  ceilKey_spec rangeMap 3 (by decide) (by decide)

/-- C15, as the claim states it, fails: on the map with keys 1, 2 and 5 the key 0 is below
`MinKey()`, yet `CeilKey(0)` returns 1, and the key 10 is above `MaxKey()`, yet
`FloorKey(10)` returns 5. -/
theorem ceil_below_range_returns :
    rangeMap.root.isNode = true ∧ rangeMap.root.IsBST ∧
    rangeMap.MinKey = Outcome.ok 1 ∧ rangeMap.MaxKey = Outcome.ok 5 ∧
    rangeMap.CeilKey 0 = Outcome.ok 1 ∧ rangeMap.FloorKey 10 = Outcome.ok 5 ∧
    ¬ (∀ k : Nat, (∃ mn, rangeMap.MinKey = Outcome.ok mn ∧ k < mn) ∨
          (∃ mx, rangeMap.MaxKey = Outcome.ok mx ∧ k > mx) →
        rangeMap.FloorKey k = Outcome.thrown Error.invalidKey ∧
        rangeMap.CeilKey k = Outcome.thrown Error.invalidKey) := by
  refine ⟨by decide, by decide, by decide, by decide, by decide, by decide, ?_⟩
  intro h
  have h0 := (h 0 (Or.inl ⟨1, by decide, by decide⟩)).2
  revert h0
  decide

/-- C15, amended: on a non-empty BST, for a key `k` below `MinKey()` the call `FloorKey(k)`
throws "Invalid key" while `CeilKey(k)` returns `MinKey()`; for a key `k` above `MaxKey()`
the call `CeilKey(k)` throws "Invalid key" while `FloorKey(k)` returns `MaxKey()`. -/
theorem floor_ceil_outside_range {K V : Type} [LinearOrder K] (m : Treemap K V) (k : K)
    (hn : m.root.isNode = true) (hb : m.root.IsBST) :
    (∀ mn, m.MinKey = Outcome.ok mn → k < mn →
      m.FloorKey k = Outcome.thrown Error.invalidKey ∧ m.CeilKey k = Outcome.ok mn) ∧
    (∀ mx, m.MaxKey = Outcome.ok mx → k > mx →
      m.CeilKey k = Outcome.thrown Error.invalidKey ∧ m.FloorKey k = Outcome.ok mx) := by
  obtain ⟨mn0, hmin, hminmem, hleast⟩ := MinKey_least m hn hb
  obtain ⟨mx0, hmax, hmaxmem, hgreatest⟩ := MaxKey_greatest m hn hb
  constructor
  · intro mn h hlt
    rw [hmin] at h
    injection h with h
    subst h
    constructor
    · rcases FloorKey_cases m k hn hb with ⟨-, h⟩ | ⟨f, -, -, h3, h4, -⟩
      · exact h
      · exact absurd (lt_of_lt_of_le hlt (hleast f h3)) (not_lt.mpr h4)
    · rcases CeilKey_cases m k hn hb with ⟨hall, -⟩ | ⟨c, h1, -, h3, -, h5⟩
      · exact absurd (lt_trans (hall mn0 hminmem) hlt) (lt_irrefl _)
      · rw [h1, le_antisymm (h5 mn0 hminmem (le_of_lt hlt)) (hleast c h3)]
  · intro mx h hgt
    rw [hmax] at h
    injection h with h
    subst h
    constructor
    · rcases CeilKey_cases m k hn hb with ⟨-, h⟩ | ⟨c, -, -, h3, h4, -⟩
      · exact h
      · exact absurd (lt_of_le_of_lt (hgreatest c h3) hgt) (not_lt.mpr h4)
    · rcases FloorKey_cases m k hn hb with ⟨hall, -⟩ | ⟨f, h1, -, h3, -, h5⟩
      · exact absurd (lt_trans hgt (hall mx0 hmaxmem)) (lt_irrefl _)
      · rw [h1, le_antisymm (hgreatest f h3) (h5 mx0 hmaxmem (le_of_lt hgt))]

theorem floor_ceil_outside_range_witness :
    (rangeMap.FloorKey 0 = Outcome.thrown Error.invalidKey ∧
      rangeMap.CeilKey 0 = Outcome.ok 1) ∧
    (rangeMap.CeilKey 10 = Outcome.thrown Error.invalidKey ∧
      rangeMap.FloorKey 10 = Outcome.ok 5) :=
  ⟨(floor_ceil_outside_range rangeMap 0 (by decide) (by decide)).1 1 (by decide) (by decide),
    (floor_ceil_outside_range rangeMap 10 (by decide) (by decide)).2 5 (by decide) (by decide)⟩

/-- C16: on a default-constructed map, whose root is null, `MinKey()`, `MaxKey()`,
`FloorKey(k)` and `CeilKey(k)` all dereference the null root; none of them throws
"Empty tree" or any other exception. -/
theorem order_queries_on_empty_deref_null (K V : Type) [LinearOrder K] (hv : Bool) (k : K) :
    (Treemap.new hv : Treemap K V).MinKey = Outcome.nullDeref ∧
    (Treemap.new hv : Treemap K V).MaxKey = Outcome.nullDeref ∧
    (Treemap.new hv : Treemap K V).FloorKey k = Outcome.nullDeref ∧
    (Treemap.new hv : Treemap K V).CeilKey k = Outcome.nullDeref ∧
    (Treemap.new hv : Treemap K V).MinKey ≠ Outcome.thrown Error.emptyTree := by
  refine ⟨rfl, rfl, rfl, rfl, ?_⟩
  intro h
  cases h

/-- C17: the helper `Remove` returns on every tree and key, after at most one call per
level of the tree and one on a null slot. On a BST, when the key sits at a node with two
children, the second removal, that of the copied successor key in the right subtree, only
descends to the left and ends in the branch `n = std::move(...)` at a node whose left
child is null; so the two-children branch is entered at most once in a removal. -/
theorem remove_helper_terminates (K V : Type) [LinearOrder K] :
    (∀ (t : NodePtr K V) (key : K),
      (t.RemoveTraced key).1 = t.Remove key ∧ (t.RemoveTraced key).2.length ≤ t.height + 1) ∧
    (∀ (l r : NodePtr K V) (k : K) (v : V),
      (NodePtr.node l k v r).IsBST → l.isNode = true → r.isNode = true →
      ∃ mk mv n, r.Min = some (mk, mv) ∧
        (NodePtr.node l k v r).Remove k = NodePtr.node l mk mv (r.Remove mk) ∧
        (r.RemoveTraced mk).2 = List.replicate n Branch.goLeft ++ [Branch.oneChild false] ∧
        ((NodePtr.node l k v r).RemoveTraced k).2 =
          Branch.twoChildren :: (List.replicate n Branch.goLeft ++ [Branch.oneChild false])) ∧
    (∀ (t : NodePtr K V) (key : K), t.IsBST →
      (t.RemoveTraced key).2.count Branch.twoChildren ≤ 1) := by
  refine ⟨fun t key => ⟨RemoveTraced_fst t key, RemoveTraced_length t key⟩, ?_,
    fun t key hb => RemoveTraced_twoChildren_once t key hb⟩
  intro l r k v hb hl hr
  obtain ⟨mk, mv, rest, hm, -⟩ := Min_entries r hr
  obtain ⟨n, hn⟩ := RemoveTraced_of_Min r mk mv hb.2.1 hm
  refine ⟨mk, mv, n, hm, ?_, hn, ?_⟩
  · rw [NodePtr.Remove]
    simp [hl, hr, hm]
  · rw [NodePtr.RemoveTraced]
    simp [hl, hr, hm, hn]

theorem remove_helper_terminates_witness :
    (∃ mk mv n, (NodePtr.node NodePtr.null 5 '5' NodePtr.null).Min = some (mk, mv) ∧
        (NodePtr.node (NodePtr.node NodePtr.null 1 '1' NodePtr.null) 4 '4'
          (NodePtr.node NodePtr.null 5 '5' NodePtr.null)).Remove 4 =
          NodePtr.node (NodePtr.node NodePtr.null 1 '1' NodePtr.null) mk mv
            ((NodePtr.node NodePtr.null 5 '5' NodePtr.null).Remove mk) ∧
        ((NodePtr.node NodePtr.null 5 '5' NodePtr.null).RemoveTraced mk).2 =
          List.replicate n Branch.goLeft ++ [Branch.oneChild false] ∧
        ((NodePtr.node (NodePtr.node NodePtr.null 1 '1' NodePtr.null) 4 '4'
          (NodePtr.node NodePtr.null 5 '5' NodePtr.null)).RemoveTraced 4).2 =
          Branch.twoChildren :: (List.replicate n Branch.goLeft ++ [Branch.oneChild false])) ∧
      (sampleMap.root.RemoveTraced 4).2.count Branch.twoChildren ≤ 1 :=
  ⟨(remove_helper_terminates Nat Char).2.1 (NodePtr.node NodePtr.null 1 '1' NodePtr.null)
      (NodePtr.node NodePtr.null 5 '5' NodePtr.null) 4 '4' (by decide) (by decide) (by decide),
    (remove_helper_terminates Nat Char).2.2 sampleMap.root 4 (by decide)⟩

/-- C18: inserting entries with strictly ascending keys, in that order, into the empty map
builds the right chain of these entries: no node has a left child, the root holds the first
key, and the height of the tree is the number of entries inserted. -/
theorem ascending_inserts_make_chain {K V : Type} [LinearOrder K] (hv : Bool)
    (L : List (K × V)) (hL : L.Pairwise (fun a b => a.1 < b.1)) (hn : 1 ≤ L.length) :
    ((Treemap.new hv).run (L.map fun e => Op.Insert e.1 e.2)).root = NodePtr.rightChain L ∧
    ((Treemap.new hv).run (L.map fun e => Op.Insert e.1 e.2)).root.NoLeftChild ∧
    ((Treemap.new hv).run (L.map fun e => Op.Insert e.1 e.2)).root.key? =
      L.head?.map Prod.fst ∧
    ((Treemap.new hv).run (L.map fun e => Op.Insert e.1 e.2)).root.isNode = true ∧
    ((Treemap.new hv).run (L.map fun e => Op.Insert e.1 e.2)).root.height = L.length ∧
    ((Treemap.new hv).run (L.map fun e => Op.Insert e.1 e.2)).size = L.length := by
  obtain ⟨h1, h2⟩ := run_inserts_rightChain L [] (Treemap.new hv) rfl (by simp) hL
  rw [List.nil_append] at h1
  rw [h1, h2]
  refine ⟨rfl, rightChain_noLeftChild L, ?_, ?_, rightChain_height L, by simp [Treemap.new]⟩
  · cases L with
    | nil => rfl
    | cons e rest =>
      obtain ⟨k, v⟩ := e
      rfl
  · cases L with
    | nil => simp at hn
    | cons e rest =>
      obtain ⟨k, v⟩ := e
      rfl

theorem ascending_inserts_make_chain_witness :
    ((Treemap.new false).run
        ([(1, 'A'), (2, 'B'), (3, 'C')].map fun e => Op.Insert e.1 e.2)).root =
      NodePtr.rightChain [((1 : Nat), 'A'), (2, 'B'), (3, 'C')] ∧
    ((Treemap.new false).run
        ([((1 : Nat), 'A'), (2, 'B'), (3, 'C')].map fun e => Op.Insert e.1 e.2)).root.height
      = 3 :=
  ⟨(ascending_inserts_make_chain false [((1 : Nat), 'A'), (2, 'B'), (3, 'C')]
      (by decide) (by decide)).1,
    (ascending_inserts_make_chain false [((1 : Nat), 'A'), (2, 'B'), (3, 'C')]
      (by decide) (by decide)).2.2.2.2.1⟩

/-- C19: in every map state, when `Insert(k, v)` does not throw, the call `Remove(k)` made
right after it does not throw either and gives back the state from before the insertion:
the same tree, shape, keys and values, and the same counter. -/
theorem insert_then_remove_restores {K V : Type} [LinearOrder K] (m : Treemap K V) (k : K)
    (v : V) (h : (m.Insert k v).2 = none) :
    (m.Insert k v).1.Remove k = (m, none) := by
  have he : (m.root.Insert k v).2 = none := by rw [← map_Insert_error]; exact h
  have hr := map_Insert_root m k v
  have hs := map_Insert_size m k v
  have hf := map_Insert_flag m k v
  rw [if_pos he] at hs
  rw [map_Remove_nonempty _ k (by omega)]
  rcases hm : (m.Insert k v).1 with ⟨r2, s2, f2⟩
  rw [hm] at hr hs hf
  simp only at hr hs hf
  subst hr hs hf
  rw [NodePtr.Remove_Insert m.root k v he]
  rfl

theorem insert_then_remove_restores_witness :
    (sampleMap.Insert 6 '6').1.Remove 6 = (sampleMap, none) :=
  insert_then_remove_restores sampleMap 6 '6' (by decide)

/-- C20: in every state reached from the empty map by a sequence of `Insert` and `Remove`
calls the counter is at most the number of nodes. So a `Remove` that reaches `size--` finds
a counter above zero, and when `Empty()` is false the root is not null and `MinKey()`,
`MaxKey()`, `FloorKey(k)` and `CeilKey(k)` do not dereference a null pointer. -/
theorem size_le_count_reachable {K V : Type} [LinearOrder K] (hv : Bool)
    (ops : List (Op K V)) (m : Treemap K V) (hm : m = (Treemap.new hv).run ops) :
    m.size ≤ m.root.count ∧
    (∀ k : K, (m.Remove k).2 = none → 0 < m.size ∧ (m.Remove k).1.size + 1 = m.size) ∧
    (m.Empty = false →
      m.root.isNode = true ∧ m.MinKey ≠ Outcome.nullDeref ∧ m.MaxKey ≠ Outcome.nullDeref ∧
      ∀ k : K, m.FloorKey k ≠ Outcome.nullDeref ∧ m.CeilKey k ≠ Outcome.nullDeref) := by
  have hle : m.size ≤ m.root.count := by
    rw [hm]
    exact run_size_le_count _ ops (by simp [Treemap.new, NodePtr.count])
  have hb : m.root.IsBST := by
    rw [hm]
    exact run_isBST _ ops (by simp [Treemap.new, NodePtr.IsBST])
  refine ⟨hle, ?_, ?_⟩
  · intro k hk
    rcases Nat.eq_zero_or_pos m.size with hs | hs
    · rw [map_Remove_empty m k hs] at hk
      cases hk
    · refine ⟨hs, ?_⟩
      rw [map_Remove_nonempty m k hs]
      show m.size - 1 + 1 = m.size
      omega
  · intro he
    have hs : 0 < m.size := by
      unfold Treemap.Empty at he
      split_ifs at he with h0
      omega
    have hn : m.root.isNode = true := (isNode_iff_count_pos m.root).mpr (by omega)
    obtain ⟨mn, hmin, -, -⟩ := MinKey_least m hn hb
    obtain ⟨mx, hmax, -, -⟩ := MaxKey_greatest m hn hb
    refine ⟨hn, by rw [hmin]; simp, by rw [hmax]; simp, fun k => ⟨?_, ?_⟩⟩
    · rcases FloorKey_cases m k hn hb with ⟨-, h⟩ | ⟨f, h, -⟩ <;> rw [h] <;> simp
    · rcases CeilKey_cases m k hn hb with ⟨-, h⟩ | ⟨c, h, -⟩ <;> rw [h] <;> simp

theorem size_le_count_reachable_witness :
    (sampleMap.run [Op.Remove 7]).size ≤ (sampleMap.run [Op.Remove 7]).root.count ∧
    (∀ k : Nat, ((sampleMap.run [Op.Remove 7]).Remove k).2 = none →
      0 < (sampleMap.run [Op.Remove 7]).size ∧
      ((sampleMap.run [Op.Remove 7]).Remove k).1.size + 1 = (sampleMap.run [Op.Remove 7]).size) ∧
    ((sampleMap.run [Op.Remove 7]).Empty = false →
      (sampleMap.run [Op.Remove 7]).root.isNode = true ∧
      (sampleMap.run [Op.Remove 7]).MinKey ≠ Outcome.nullDeref ∧
      (sampleMap.run [Op.Remove 7]).MaxKey ≠ Outcome.nullDeref ∧
      ∀ k : Nat, (sampleMap.run [Op.Remove 7]).FloorKey k ≠ Outcome.nullDeref ∧
        (sampleMap.run [Op.Remove 7]).CeilKey k ≠ Outcome.nullDeref) :=
  size_le_count_reachable false (sampleOps ++ [Op.Remove 7]) (sampleMap.run [Op.Remove 7])
    (by decide)

end Claims

end TreemapModel
